import Mathlib

/-!
The link table of httpdirfs (`link.c`)

A shallow embedding of `src/link.c`: the URL helpers `url_upper` and
`url_append`, the href filter `is_valid_link`, the tree walk
`HTML_to_LinkTable`, the classifier `LinkTable_fill` and the builder
`LinkTable_new`.

Conventions of the embedding.

* A C string is the list of its characters before the terminating NUL
  (`CString`); reading the byte at index `strlen s` gives the NUL.
* A function whose C body has an undefined step that decides what it
  computes (a read before the start of a string, a null pointer used in
  pointer arithmetic or passed as a string) returns `Option`, and `none`
  stands for that undefined step.
* Strings are modelled by their contents.  Allocation (`calloc`, `realloc`,
  `strndup`) is taken to succeed, and the size of an allocation is not part
  of the contents of the string built in it.
* libcurl and gumbo are collaborators outside the repository.  They are
  parameters of the model: `curl_easy_perform` is a function from the request
  (handle, URL, `CURLOPT_NOBODY`) to what the transfer reports, and
  `gumbo_parse` is a function from the fetched body to a node tree.  Every
  request that is performed is recorded in a log of events.
* `link.h` is not among the sources, so `LINK_LEN_MAX` is a parameter of
  every function that uses it, and the types it declares are modelled from
  the fields `link.c` uses.
-/

namespace Httpdirfs

/-! ## C strings -/

/-- A NUL-terminated C string, as the list of characters before the NUL. -/
abbrev CString := List Char

/-- The byte `s[i]` of a C string; the terminator is read at `i = strlen s`. -/
def charAt (s : CString) (i : Nat) : Char := s.getD i '\x00'

/-- C `strlen`. -/
def strlen (s : CString) : Nat := s.length

/-- C `strnlen`: the length of `s`, capped at `maxlen`. -/
def strnlen (s : CString) (maxlen : Nat) : Nat := min s.length maxlen

/-- C `isalnum` in the C locale: ASCII letters and digits. -/
def isalnum (c : Char) : Bool := c.isAlphanum

/-- C `strrchr`, as the index of the last occurrence of `c` in `s`
(`pt - url` in the source), or `none` for the null pointer. -/
def strrchr : CString → Char → Option Nat
  | [], _ => none
  | x :: xs, c =>
    match strrchr xs c with
    | some i => some (i + 1)
    | none => if x = c then some 0 else none

/-- C `strndup`: a copy of at most the first `n` characters. -/
def strndup (s : CString) (n : Nat) : CString := s.take n

/-- C `strncpy` into a zeroed buffer: the first `n` characters of `src`. -/
def strncpy (src : CString) (n : Nat) : CString := src.take n

/-- C `strncat`: `dst` followed by at most `n` characters of `src`. -/
def strncat (dst src : CString) (n : Nat) : CString := dst ++ src.take n

/-! ## The URL helpers -/

/-- The function `url_upper` of `link.c`: `strrchr` finds the last slash,
`len = pt - url + 1`, and the result is `strndup(url, len)`.  When `url` has
no slash `pt` is the null pointer and the pointer difference is undefined:
`none`. -/
def url_upper (url : CString) : Option CString :=
  match strrchr url '/' with
  | none => none
  | some pt =>
    let len := pt + 1
    some (strndup url len)

/-- The function `url_append` of `link.c`.  The test `url[strlen(url)-1]`
reads before the start of an empty `url`, which is undefined: `none`.
Otherwise the result holds `ul` characters of `url`, the separator when it is
needed, and `sl` characters of `sublink`. -/
def url_append (url sublink : CString) : Option CString :=
  if strlen url = 0 then none
  else
    let needs_separator : Nat := if charAt url (strlen url - 1) ≠ '/' then 1 else 0
    let ul := strlen url
    let sl := strlen sublink
    let str := strncpy url ul
    let str := if needs_separator ≠ 0 then str ++ ['/'] else str
    some (strncat str sublink sl)

/-! ## The href filter -/

/-- The function `is_valid_link` of `link.c`; the C result `1` is `true` and
`0` is `false`.  The reads `n[6]` and `n[7]` happen only behind the tests on
the characters before them, as in the short-circuit evaluation of the
source. -/
def is_valid_link (LINK_LEN_MAX : Nat) (n : CString) : Bool :=
  if !isalnum (charAt n 0) then false
  else
    let c := strnlen n LINK_LEN_MAX
    if c > 5 then
      if charAt n 0 = 'h' ∧ charAt n 1 = 't' ∧ charAt n 2 = 't' ∧ charAt n 3 = 'p' then
        if (charAt n 4 = ':' ∧ charAt n 5 = '/' ∧ charAt n 6 = '/') ∨
           (charAt n 4 = 's' ∧ charAt n 5 = ':' ∧ charAt n 6 = '/' ∧ charAt n 7 = '/') then
          false
        else true
      else true
    else true

/-! ## Links and link tables -/

/-- Modelled from the spec: the enumeration `LinkType` of `link.h`, which is
not among the sources; `Unknown | File | Directory` in the data model, under
the names `link.c` uses. -/
inductive LinkType
  | LINK_DIR
  | LINK_FILE
  | LINK_UNKNOWN
  deriving DecidableEq, Repr

/-- Modelled from the spec: the structure `Link` of `link.h`, which is not
among the sources, with the fields `link.c` reads and writes.  `p_url` holds
the characters stored by `strncpy` (the array is taken to have room for
`LINK_LEN_MAX` characters and a terminator), `res` is the `CURLcode` of the
last recorded transfer, `body` is the buffer accumulated by
`WriteMemoryCallback` (`none` is the null pointer, `body_sz` is the length)
and `content_length` is an unsigned size, printed with `%lu` by
`LinkTable_print`.  The handle `curl` is owned by the link and is identified
in the model by the index of the link in its table. -/
structure Link where
  p_url : CString
  type : LinkType
  res : Int
  body : Option CString
  content_length : Nat
  deriving DecidableEq, Repr

/-- Modelled from the spec: the structure `LinkTable` of `link.h`, which is
not among the sources.  The array `links` is a list and `num` is its
length. -/
structure LinkTable where
  links : List Link
  deriving DecidableEq, Repr

/-- The field `num` of a table. -/
def LinkTable.num (linktbl : LinkTable) : Nat := linktbl.links.length

/-- The success code `CURLE_OK` of libcurl. -/
def CURLE_OK : Int := 0

/-- The function `Link_new` of `link.c`: a zeroed link (`calloc`: null body,
length 0) whose `p_url` holds the characters `strncpy` copies under the bound
`LINK_LEN_MAX`, of unknown type, with `res = -1`. -/
def Link_new (LINK_LEN_MAX : Nat) (p_url : CString) : Link :=
  { p_url := strncpy p_url LINK_LEN_MAX
    type := LinkType.LINK_UNKNOWN
    res := -1
    body := none
    content_length := 0 }

/-- The function `LinkTable_add` of `link.c`: `num` grows by one and the link
is stored in the last slot. -/
def LinkTable_add (linktbl : LinkTable) (link : Link) : LinkTable :=
  { links := linktbl.links ++ [link] }

/-! ## The parsed document -/

/-- The tag of an element, as far as `link.c` tells tags apart. -/
inductive GumboTag
  | GUMBO_TAG_A
  | GUMBO_TAG_OTHER
  deriving DecidableEq, Repr

/-- An attribute of an element: a name and a value. -/
structure GumboAttribute where
  name : CString
  value : CString
  deriving DecidableEq, Repr

/-- A node of the tree gumbo returns: an element with its tag, attributes
and children, or a node of another kind (text, comment, ...). -/
inductive GumboNode
  | element (tag : GumboTag) (attributes : List GumboAttribute) (children : List GumboNode)
  | other

/-- The lookup `gumbo_get_attribute` of gumbo: the first attribute whose name
equals `name`, letter case ignored. -/
def gumbo_get_attribute (attributes : List GumboAttribute) (name : CString) :
    Option GumboAttribute :=
  attributes.find? (fun a => a.name.map Char.toLower == name.map Char.toLower)

/-- The anchor test of `HTML_to_LinkTable`: on an `a` element with an `href`
that `is_valid_link` accepts, a new link is added. -/
def visit_anchor (LINK_LEN_MAX : Nat) (tag : GumboTag) (attributes : List GumboAttribute)
    (linktbl : LinkTable) : LinkTable :=
  if tag = GumboTag.GUMBO_TAG_A then
    match gumbo_get_attribute attributes "href".toList with
    | some href =>
      if is_valid_link LINK_LEN_MAX href.value then
        LinkTable_add linktbl (Link_new LINK_LEN_MAX href.value)
      else linktbl
    | none => linktbl
  else linktbl

mutual
/-- The function `HTML_to_LinkTable` of `link.c`: nodes that are not elements
are left at once; an element is tested as an anchor and then its children
are visited in order. -/
def HTML_to_LinkTable (LINK_LEN_MAX : Nat) : GumboNode → LinkTable → LinkTable
  | GumboNode.other, linktbl => linktbl
  | GumboNode.element tag attributes children, linktbl =>
    HTML_to_LinkTable_children LINK_LEN_MAX children
      (visit_anchor LINK_LEN_MAX tag attributes linktbl)
/-- The loop of `HTML_to_LinkTable` over the children of an element. -/
def HTML_to_LinkTable_children (LINK_LEN_MAX : Nat) : List GumboNode → LinkTable → LinkTable
  | [], linktbl => linktbl
  | child :: rest, linktbl =>
    HTML_to_LinkTable_children LINK_LEN_MAX rest (HTML_to_LinkTable LINK_LEN_MAX child linktbl)
end

/-! ## The transport and the parser -/

/-- A transfer to perform on a handle: the handle (the index of its link in
the table), the URL set with `CURLOPT_URL`, and whether `CURLOPT_NOBODY` is
set. -/
structure Request where
  handle : Nat
  url : CString
  nobody : Bool
  deriving DecidableEq, Repr

/-- What a transfer reports: the `CURLcode` returned by `curl_easy_perform`,
the pieces of the body handed to the write callback, one call each (none at
all when libcurl has no data to hand over), and the value of
`CURLINFO_CONTENT_LENGTH_DOWNLOAD`: `-1` when the length is not known, and
otherwise the length, a whole number that is not negative. -/
structure Transfer where
  res : Int
  chunks : List CString
  content_length_download : Int
  deriving DecidableEq, Repr

/-- The transport: `curl_easy_perform`, as a function of the request. -/
abbrev Curl := Request → Transfer

/-- The calls made to the collaborators, in the order they are made. -/
inductive Event
  | perform (request : Request)
  | parse (body : CString)
  deriving DecidableEq, Repr

/-- The function `WriteMemoryCallback` of `link.c`: the buffer is grown with
`realloc` (from the null pointer on the first call) and the received piece
is appended to it. -/
def WriteMemoryCallback (contents : CString) (mem : Link) : Link :=
  { mem with body := some (mem.body.getD [] ++ contents) }

/-! ## The classifier -/

/-- The body of the loop of `LinkTable_fill` for the index `i`, on the table
and the log of events so far.  A link of unknown type is probed at
`url_append(linktbl->links[0]->p_url, this_link->p_url)` with
`CURLOPT_NOBODY`; the result of `curl_easy_perform` is not looked at, and the
reported length decides between `LINK_DIR` and `LINK_FILE`. -/
def LinkTable_fill_step (curl : Curl) (i : Nat) (st : LinkTable × List Event) :
    Option (LinkTable × List Event) :=
  match st.1.links[i]? with
  | none => none
  | some this_link =>
    if this_link.type = LinkType.LINK_UNKNOWN then
      match st.1.links[0]? with
      | none => none
      | some head_link =>
        match url_append head_link.p_url this_link.p_url with
        | none => none
        | some url =>
          let request : Request := { handle := i, url := url, nobody := true }
          let cl := (curl request).content_length_download
          let this_link :=
            if cl = -1 then
              { this_link with content_length := 0, type := LinkType.LINK_DIR }
            else
              { this_link with content_length := cl.toNat, type := LinkType.LINK_FILE }
          some ({ links := st.1.links.set i this_link }, st.2 ++ [Event.perform request])
    else some st

/-- The loop `for (i = ...; i < linktbl->num; i++)` of `LinkTable_fill`, with
`k` iterations left from the index `i`. -/
def LinkTable_fill_loop (curl : Curl) : Nat → Nat → LinkTable × List Event →
    Option (LinkTable × List Event)
  | 0, _, st => some st
  | k + 1, i, st => (LinkTable_fill_step curl i st).bind (LinkTable_fill_loop curl k (i + 1))

/-- The function `LinkTable_fill` of `link.c`: the loop from index `0` over
the `num` links of the table (the body of the loop never changes `num`).
The result is the table after the loop with the probes that were made. -/
def LinkTable_fill (curl : Curl) (linktbl : LinkTable) : Option (LinkTable × List Event) :=
  LinkTable_fill_loop curl linktbl.num 0 (linktbl, [])

/-! ## The builder -/

/-- The function `LinkTable_new` of `link.c`.  The outer `Option` is `none`
when a step is undefined; inside, `none` is the null pointer returned when
the base URL cannot be retrieved, and `some` is the table.  The second
component is the log of the calls made to libcurl and gumbo.  After a
transfer that handed over no piece of the body, `head_link->body` is still
the null pointer of `calloc`; `gumbo_parse` takes a string, and the call on
the null pointer is undefined. -/
def LinkTable_new (LINK_LEN_MAX : Nat) (curl : Curl) (gumbo_parse : CString → GumboNode)
    (url : CString) : Option (Option LinkTable × List Event) :=
  let linktbl : LinkTable := { links := [] }
  let linktbl := LinkTable_add linktbl (Link_new LINK_LEN_MAX url)
  match linktbl.links[0]? with
  | none => none
  | some head_link =>
    let request : Request := { handle := 0, url := url, nobody := false }
    let transfer := curl request
    let head_link := transfer.chunks.foldl (fun mem contents => WriteMemoryCallback contents mem) head_link
    let head_link := { head_link with res := transfer.res }
    let linktbl : LinkTable := { links := linktbl.links.set 0 head_link }
    if head_link.res ≠ CURLE_OK then
      some (none, [Event.perform request])
    else
      match head_link.body with
      | none => none
      | some body =>
        let root := gumbo_parse body
        let linktbl := HTML_to_LinkTable LINK_LEN_MAX root linktbl
        match LinkTable_fill curl linktbl with
        | none => none
        | some (linktbl, probes) =>
          some (some linktbl, [Event.perform request, Event.parse body] ++ probes)

/-! ## Allocation sizes and stores

The functions above give the contents of the strings.  The definitions of
this section give, for `url_upper` and `url_append`, the size of the buffer
and the indices the function stores to. -/

/-- The value of `len` in `url_upper` as a machine with flat 64-bit addresses
computes it for a `url` stored at the address `url_addr`: `pt - url + 1` as a
`size_t`, where `pt` is the null pointer (address 0) when `url` has no
slash. -/
def url_upper_len (url_addr : Nat) (url : CString) : Nat :=
  match strrchr url '/' with
  | some pt => (pt + 1) % 2 ^ 64
  | none => (2 ^ 64 - url_addr % 2 ^ 64 + 1) % 2 ^ 64

/-- The number of bytes `strndup(s, n)` allocates: the characters it copies
and the terminator. -/
def strndup_size (s : CString) (n : Nat) : Nat := min (strlen s) n + 1

/-- Whether the store `str[len] = 0` at the end of `url_upper` is inside the
buffer `strndup(url, len)` returned. -/
def url_upper_store_in_bounds (url_addr : Nat) (url : CString) : Bool :=
  decide (url_upper_len url_addr url < strndup_size url (url_upper_len url_addr url))

/-- The flag `needs_separator` of `url_append`, for a non-empty `url`. -/
def needs_separator (url : CString) : Nat :=
  if charAt url (strlen url - 1) ≠ '/' then 1 else 0

/-- The number of bytes `calloc(ul + sl + needs_separator, sizeof(char))`
gives `str` in `url_append`; `none` for the empty `url`, on which
`needs_separator` is not defined. -/
def url_append_size (url sublink : CString) : Option Nat :=
  if strlen url = 0 then none
  else some (strlen url + strlen sublink + needs_separator url)

/-- The indices of `str` that `url_append` stores to, in order: `strncpy`
stores `ul` characters from index 0, the separator is stored at index `ul`
when it is needed, and `strncat` stores `sl` characters from the end of the
string in `str` (the index `ul + needs_separator`, where the bytes zeroed by
`calloc` start) and then the terminating NUL.  When `sublink` is empty no
zeroed byte is left in the buffer and the search for the end of the string
already leaves it; the end is taken at the same index. -/
def url_append_stores (url sublink : CString) : Option (List Nat) :=
  if strlen url = 0 then none
  else
    let ul := strlen url
    let sl := strlen sublink
    let stores := List.range ul
    let stores := if needs_separator url ≠ 0 then stores ++ [ul] else stores
    let stores := stores ++ (List.range sl).map (fun k => ul + needs_separator url + k)
    some (stores ++ [ul + needs_separator url + sl])

/-! ## The operations in the words of the specification

These definitions follow the specification and are compared below with the
functions of `link.c`. -/

/-- The operation `Join` of the specification: a slash is put between
`baseURL` and `sublink` only if `baseURL` does not already end with one. -/
def Join (baseURL sublink : CString) : CString :=
  if baseURL.getLast? = some '/' then baseURL ++ sublink else baseURL ++ '/' :: sublink

/-- The href of an element when it is a qualifying anchor in the sense of the
specification: an anchor element carrying an `href` attribute that
`is_valid_link` accepts. -/
def anchor_href (LINK_LEN_MAX : Nat) (tag : GumboTag) (attributes : List GumboAttribute) :
    List CString :=
  if tag = GumboTag.GUMBO_TAG_A then
    match gumbo_get_attribute attributes "href".toList with
    | some href => if is_valid_link LINK_LEN_MAX href.value then [href.value] else []
    | none => []
  else []

mutual
/-- The hrefs of the qualifying anchors of a tree in document order: depth
first, an element before its children, the children from first to last. -/
def qualifying_hrefs (LINK_LEN_MAX : Nat) : GumboNode → List CString
  | GumboNode.other => []
  | GumboNode.element tag attributes children =>
    anchor_href LINK_LEN_MAX tag attributes ++ qualifying_hrefs_children LINK_LEN_MAX children
/-- The hrefs of the qualifying anchors of a sequence of trees. -/
def qualifying_hrefs_children (LINK_LEN_MAX : Nat) : List GumboNode → List CString
  | [] => []
  | child :: rest =>
    qualifying_hrefs LINK_LEN_MAX child ++ qualifying_hrefs_children LINK_LEN_MAX rest
end

/-- The entry made for an href: of unknown type, holding the first
`LINK_LEN_MAX` characters of the href. -/
def new_entry (LINK_LEN_MAX : Nat) (href : CString) : Link :=
  { p_url := href.take LINK_LEN_MAX
    type := LinkType.LINK_UNKNOWN
    res := -1
    body := none
    content_length := 0 }

/-- The request of the probe for the link `l` at index `i`, when the base of
the table is `base`. -/
def probe_request (base : CString) (i : Nat) (l : Link) : Request :=
  { handle := i, url := Join base l.p_url, nobody := true }

/-- The classification rule on one link: a link of unknown type becomes a
directory of length 0 when the probe reports no length, and a file of the
reported length otherwise; other links are left as they are. -/
def classify (curl : Curl) (base : CString) (i : Nat) (l : Link) : Link :=
  if l.type = LinkType.LINK_UNKNOWN then
    if (curl (probe_request base i l)).content_length_download = -1 then
      { l with content_length := 0, type := LinkType.LINK_DIR }
    else
      { l with content_length := (curl (probe_request base i l)).content_length_download.toNat,
               type := LinkType.LINK_FILE }
  else l

/-- The classification rule on the links from index `i` on. -/
def classify_from (curl : Curl) (base : CString) : Nat → List Link → List Link
  | _, [] => []
  | i, l :: ls => classify curl base i l :: classify_from curl base (i + 1) ls

/-- The probes for the links of unknown type from index `i` on, in order. -/
def probes_from (base : CString) : Nat → List Link → List Event
  | _, [] => []
  | i, l :: ls =>
    if l.type = LinkType.LINK_UNKNOWN then
      Event.perform (probe_request base i l) :: probes_from base (i + 1) ls
    else probes_from base (i + 1) ls

/-! ## Sample inputs -/

/-- A tree with nested anchors, a repeated href, an absolute link, an anchor
without href and an href on an element that is not an anchor. -/
def nested_page : GumboNode :=
  GumboNode.element GumboTag.GUMBO_TAG_OTHER []
    [GumboNode.element GumboTag.GUMBO_TAG_A
        [{ name := "href".toList, value := "x".toList }]
        [GumboNode.element GumboTag.GUMBO_TAG_A
          [{ name := "href".toList, value := "y".toList }] []],
     GumboNode.other,
     GumboNode.element GumboTag.GUMBO_TAG_A
        [{ name := "href".toList, value := "http://other.example/x".toList }] [],
     GumboNode.element GumboTag.GUMBO_TAG_A
        [{ name := "name".toList, value := "top".toList }] [],
     GumboNode.element GumboTag.GUMBO_TAG_OTHER
        [{ name := "href".toList, value := "z".toList }]
        [GumboNode.element GumboTag.GUMBO_TAG_A
          [{ name := "href".toList, value := "x".toList }] []]]

/-- A table as extraction leaves it for the base "http://a/b/" and one
anchor "empty.txt". -/
def sample_table : LinkTable :=
  { links := [Link_new 255 "http://a/b/".toList, Link_new 255 "empty.txt".toList] }

/-- A transport that reports the length 0 for "http://a/b/empty.txt" and no
length for any other URL; every transfer succeeds. -/
def sample_curl : Curl := fun request =>
  if request.url = "http://a/b/empty.txt".toList then
    { res := 0, chunks := [], content_length_download := 0 }
  else
    { res := 0, chunks := [], content_length_download := -1 }

/-- A table whose base "http://a/b" does not end with a slash, with one
anchor "c". -/
def no_slash_table : LinkTable :=
  { links := [Link_new 255 "http://a/b".toList, Link_new 255 "c".toList] }

/-- A transport on which every transfer fails with the code 7
(`CURLE_COULDNT_CONNECT`) and reports no length. -/
def failing_curl : Curl := fun _ =>
  { res := 7, chunks := [], content_length_download := -1 }

/-- An anchor element whose href is the letter `a` repeated `n` times. -/
def long_anchor (n : Nat) : GumboNode :=
  GumboNode.element GumboTag.GUMBO_TAG_A
    [{ name := "href".toList, value := List.replicate n 'a' }] []

/-- The page of the scenario of the specification: an anchor "sub/" and
then an anchor "readme.txt". -/
def sample_page : GumboNode :=
  GumboNode.element GumboTag.GUMBO_TAG_OTHER []
    [GumboNode.element GumboTag.GUMBO_TAG_A
        [{ name := "href".toList, value := "sub/".toList }] [GumboNode.other],
     GumboNode.element GumboTag.GUMBO_TAG_A
        [{ name := "href".toList, value := "readme.txt".toList }] [GumboNode.other]]

/-- A parser that returns the page of the scenario for every body. -/
def sample_parse : CString → GumboNode := fun _ => sample_page

/-- A transport on which every transfer succeeds: a transfer with a body
hands over one piece, the probe of "http://a/b/readme.txt" reports the length
42 and every other transfer reports no length. -/
def scenario_curl : Curl := fun request =>
  { res := 0
    chunks := if request.nobody then [] else ["<html>".toList]
    content_length_download :=
      if request.url = "http://a/b/readme.txt".toList then 42 else -1 }

/-- A transport on which every transfer succeeds, hands over one empty piece
of body and reports no length. -/
def plain_curl : Curl := fun _ =>
  { res := 0, chunks := [[]], content_length_download := -1 }

/-- A transport on which every transfer succeeds with an empty body: the
write callback is never called and the reported length is 0. -/
def empty_body_curl : Curl := fun _ =>
  { res := 0, chunks := [], content_length_download := 0 }

/-- A base URL of 309 characters, longer than the bound 255. -/
def long_url : CString := "http://a/".toList ++ List.replicate 300 'x'

/-- The root link after the transfer of the base URL: the link made by
`Link_new` with the pieces of the body appended and the result recorded. -/
def fetched_head (LINK_LEN_MAX : Nat) (curl : Curl) (url : CString) : Link :=
  { (curl { handle := 0, url := url, nobody := false }).chunks.foldl
      (fun mem contents => WriteMemoryCallback contents mem) (Link_new LINK_LEN_MAX url) with
    res := (curl { handle := 0, url := url, nobody := false }).res }

/-- A table with the root, an entry that is already a file of 7 bytes and an
entry of unknown type. -/
def mixed_table : LinkTable :=
  { links := [Link_new 255 "http://a/b/".toList,
      { Link_new 255 "done.txt".toList with
        type := LinkType.LINK_FILE, content_length := 7 },
      Link_new 255 "empty.txt".toList] }

/-- A page whose anchors are all rejected: an absolute link, a fragment, a
parent reference and an anchor without href. -/
def no_anchor_page : GumboNode :=
  GumboNode.element GumboTag.GUMBO_TAG_OTHER []
    [GumboNode.element GumboTag.GUMBO_TAG_A
        [{ name := "href".toList, value := "http://other.example/x".toList }] [],
     GumboNode.element GumboTag.GUMBO_TAG_A
        [{ name := "href".toList, value := "#top".toList }] [GumboNode.other],
     GumboNode.element GumboTag.GUMBO_TAG_A
        [{ name := "href".toList, value := "../".toList }] [],
     GumboNode.element GumboTag.GUMBO_TAG_A
        [{ name := "name".toList, value := "top".toList }] []]

/-! ## Facts about the string helpers -/

theorem charAt_cons_zero (c : Char) (rest : CString) : charAt (c :: rest) 0 = c := rfl

theorem charAt_cons_succ (c : Char) (rest : CString) (i : Nat) :
    charAt (c :: rest) (i + 1) = charAt rest i := by
  simp [charAt, List.getD]

theorem charAt_last (url : CString) (h : url ≠ []) :
    charAt url (strlen url - 1) = url.getLast h := by
  unfold charAt strlen
  rw [List.getLast_eq_getElem]
  have hlen : url.length - 1 < url.length := by
    have := List.length_pos.mpr h
    omega
  simp [List.getD, List.getElem?_eq_getElem hlen]

theorem strrchr_none (s : CString) (c : Char) : strrchr s c = none ↔ c ∉ s := by
  induction s with
  | nil => simp [strrchr]
  | cons x xs ih =>
    unfold strrchr
    cases hr : strrchr xs c with
    | none =>
      have hx : c ∉ xs := ih.mp hr
      by_cases hxc : x = c
      · simp [hxc]
      · have : ¬ c = x := fun e => hxc e.symm
        simp [hxc, hx, this]
    | some i =>
      have hx : ¬ c ∉ xs := fun hn => by
        have := ih.mpr hn
        rw [hr] at this
        cases this
      simp only [not_not] at hx
      simp [hx]

theorem strrchr_some (s : CString) (c : Char) (i : Nat) (h : strrchr s c = some i) :
    s = s.take i ++ c :: s.drop (i + 1) ∧ c ∉ s.drop (i + 1) := by
  induction s generalizing i with
  | nil => simp [strrchr] at h
  | cons x xs ih =>
    unfold strrchr at h
    cases hr : strrchr xs c with
    | none =>
      rw [hr] at h
      by_cases hxc : x = c
      · simp [hxc] at h
        subst h
        subst hxc
        simpa using (strrchr_none xs x).mp hr
      · simp [hxc] at h
    | some j =>
      rw [hr] at h
      simp at h
      subst h
      have := ih j hr
      constructor
      · simp only [List.take_succ_cons, List.drop_succ_cons, List.cons_append]
        rw [← this.1]
      · simpa using this.2

/-! ## The href filter: what is rejected and what is accepted -/

theorem is_valid_link_of_not_alnum (L : Nat) (n : CString)
    (h : isalnum (charAt n 0) = false) : is_valid_link L n = false := by
  simp [is_valid_link, h]

theorem is_valid_link_http (L : Nat) (hL : 5 < L) (rest : CString) :
    is_valid_link L ("http://".toList ++ rest) = false := by
  have hc : 5 < strnlen ("http://".toList ++ rest) L := by
    simp [strnlen]
    omega
  simp only [String.toList, List.cons_append, List.nil_append] at hc
  simp [is_valid_link, hc, charAt, List.getD]

theorem is_valid_link_https (L : Nat) (hL : 5 < L) (rest : CString) :
    is_valid_link L ("https://".toList ++ rest) = false := by
  have hc : 5 < strnlen ("https://".toList ++ rest) L := by
    simp [strnlen]
    omega
  simp only [String.toList, List.cons_append, List.nil_append] at hc
  simp [is_valid_link, hc, charAt, List.getD]

theorem is_valid_link_of_alnum (L : Nat) (c : Char) (rest : CString)
    (halnum : isalnum c = true)
    (hhttp : ¬ "http://".toList <+: c :: rest)
    (hhttps : ¬ "https://".toList <+: c :: rest) :
    is_valid_link L (c :: rest) = true := by
  unfold is_valid_link
  simp only [charAt_cons_zero, halnum, Bool.not_true, Bool.false_eq_true, if_false]
  split
  · split
    · rename_i h4
      obtain ⟨h0, h1, h2, h3⟩ := h4
      subst h0
      match rest, h1, h2, h3, hhttp, hhttps with
      | [], h1, _, _, _, _ => simp [charAt, List.getD] at h1
      | [_], _, h2, _, _, _ => simp [charAt, List.getD] at h2
      | [_, _], _, _, h3, _, _ => simp [charAt, List.getD] at h3
      | c1 :: c2 :: c3 :: tl, h1, h2, h3, hhttp, hhttps =>
        simp [charAt, List.getD] at h1 h2 h3
        subst h1 h2 h3
        rw [if_neg]
        rintro (⟨h4, h5, h6⟩ | ⟨h4, h5, h6, h7⟩)
        · match tl, h4, h5, h6, hhttp with
          | [], h4, _, _, _ => simp [charAt, List.getD] at h4
          | [_], _, h5, _, _ => simp [charAt, List.getD] at h5
          | [_, _], _, _, h6, _ => simp [charAt, List.getD] at h6
          | c4 :: c5 :: c6 :: tl2, h4, h5, h6, hhttp =>
            simp [charAt, List.getD] at h4 h5 h6
            subst h4 h5 h6
            exact hhttp ⟨tl2, rfl⟩
        · match tl, h4, h5, h6, h7, hhttps with
          | [], h4, _, _, _, _ => simp [charAt, List.getD] at h4
          | [_], _, h5, _, _, _ => simp [charAt, List.getD] at h5
          | [_, _], _, _, h6, _, _ => simp [charAt, List.getD] at h6
          | [_, _, _], _, _, _, h7, _ => simp [charAt, List.getD] at h7
          | c4 :: c5 :: c6 :: c7 :: tl2, h4, h5, h6, h7, hhttps =>
            simp [charAt, List.getD] at h4 h5 h6 h7
            subst h4 h5 h6 h7
            exact hhttps ⟨tl2, rfl⟩
    · rfl
  · rfl

/-- C3: `is_valid_link` returns false for the empty href, for every href
whose first character is not alphanumeric (such as "#frag", "../x" and "/x")
and for every href that starts with the lowercase "http://" or "https://"
(such as "http://x" and "https://x"), provided `LINK_LEN_MAX`, the cap of
`strnlen`, is larger than 5. -/
theorem is_valid_link_rejects (LINK_LEN_MAX : Nat) (hmax : 5 < LINK_LEN_MAX) :
    is_valid_link LINK_LEN_MAX [] = false ∧
    (∀ (c : Char) (rest : CString), isalnum c = false →
      is_valid_link LINK_LEN_MAX (c :: rest) = false) ∧
    (∀ rest : CString, is_valid_link LINK_LEN_MAX ("http://".toList ++ rest) = false) ∧
    (∀ rest : CString, is_valid_link LINK_LEN_MAX ("https://".toList ++ rest) = false) ∧
    is_valid_link LINK_LEN_MAX "#frag".toList = false ∧
    is_valid_link LINK_LEN_MAX "../x".toList = false ∧
    is_valid_link LINK_LEN_MAX "/x".toList = false ∧
    is_valid_link LINK_LEN_MAX "http://x".toList = false ∧
    is_valid_link LINK_LEN_MAX "https://x".toList = false := by
  refine ⟨?_, ?_, ?_, ?_, ?_, ?_, ?_, ?_, ?_⟩
  · exact is_valid_link_of_not_alnum _ _ (by decide)
  · intro c rest h
    exact is_valid_link_of_not_alnum _ _ (by simpa [charAt_cons_zero] using h)
  · exact is_valid_link_http _ hmax
  · exact is_valid_link_https _ hmax
  · exact is_valid_link_of_not_alnum _ _ (by decide)
  · exact is_valid_link_of_not_alnum _ _ (by decide)
  · exact is_valid_link_of_not_alnum _ _ (by decide)
  · exact is_valid_link_http _ hmax "x".toList
  · exact is_valid_link_https _ hmax "x".toList

theorem is_valid_link_rejects_witness :
    5 < 255 ∧ is_valid_link 255 [] = false ∧
    is_valid_link 255 "#frag".toList = false ∧
    is_valid_link 255 "http://x".toList = false ∧
    is_valid_link 255 "https://x".toList = false :=
  have h := is_valid_link_rejects 255 (by decide)
  ⟨by decide, h.1, h.2.2.2.2.1, h.2.2.2.2.2.2.2.1, h.2.2.2.2.2.2.2.2⟩

/-- C4: `is_valid_link` returns true for every href whose first character is
alphanumeric and which does not start with "http://" or "https://", whatever
`LINK_LEN_MAX` is. -/
theorem is_valid_link_accepts (LINK_LEN_MAX : Nat) (c : Char) (rest : CString)
    (halnum : isalnum c = true)
    (hhttp : ¬ "http://".toList <+: c :: rest)
    (hhttps : ¬ "https://".toList <+: c :: rest) :
    is_valid_link LINK_LEN_MAX (c :: rest) = true :=
  is_valid_link_of_alnum LINK_LEN_MAX c rest halnum hhttp hhttps

theorem is_valid_link_accepts_witness :
    is_valid_link 255 "file.txt".toList = true ∧
    is_valid_link 255 "http:/x".toList = true ∧
    is_valid_link 255 "https:/x".toList = true ∧
    is_valid_link 255 "httpd.conf".toList = true ∧
    is_valid_link 255 "HTTP://x".toList = true ∧
    is_valid_link 255 "Https://x".toList = true :=
  ⟨is_valid_link_accepts 255 'f' "ile.txt".toList (by decide) (by decide) (by decide),
   is_valid_link_accepts 255 'h' "ttp:/x".toList (by decide) (by decide) (by decide),
   is_valid_link_accepts 255 'h' "ttps:/x".toList (by decide) (by decide) (by decide),
   is_valid_link_accepts 255 'h' "ttpd.conf".toList (by decide) (by decide) (by decide),
   is_valid_link_accepts 255 'H' "TTP://x".toList (by decide) (by decide) (by decide),
   is_valid_link_accepts 255 'H' "ttps://x".toList (by decide) (by decide) (by decide)⟩

/-! ## The URL helpers: joining and taking the parent -/

theorem url_append_of_slash (url sublink : CString) (h : url.getLast? = some '/') :
    url_append url sublink = some (url ++ sublink) := by
  have hne : url ≠ [] := by
    rintro rfl
    simp at h
  have hlast : url.getLast hne = '/' := by
    rw [List.getLast?_eq_getLast _ hne] at h
    exact Option.some.inj h
  have hc : charAt url (url.length - 1) = '/' := by
    have := charAt_last url hne
    simpa [strlen, hlast] using this
  simp [url_append, strlen, hne, hc, strncpy, strncat]

theorem url_append_of_no_slash (url sublink : CString) (hne : url ≠ [])
    (h : url.getLast? ≠ some '/') :
    url_append url sublink = some (url ++ '/' :: sublink) := by
  have hlast : url.getLast hne ≠ '/' := by
    rw [List.getLast?_eq_getLast _ hne] at h
    exact fun e => h (congrArg some e)
  have hc : ¬ charAt url (url.length - 1) = '/' := by
    have := charAt_last url hne
    simp only [strlen] at this
    rw [this]
    exact hlast
  simp [url_append, strlen, hne, hc, strncpy, strncat]

theorem url_upper_of_mem (url : CString) (h : '/' ∈ url) :
    ∃ (pt : Nat), strrchr url '/' = some pt ∧ url_upper url = some (url.take (pt + 1)) := by
  cases hr : strrchr url '/' with
  | none => exact absurd h ((strrchr_none url '/').mp hr)
  | some pt => exact ⟨pt, rfl, by simp [url_upper, hr, strndup]⟩

theorem url_upper_last (url : CString) (pt : Nat) (hpt : strrchr url '/' = some pt) :
    (url.take (pt + 1)).getLast? = some '/' := by
  obtain ⟨hsplit, _⟩ := strrchr_some url '/' pt hpt
  have htake : url.take (pt + 1) = url.take pt ++ ['/'] := by
    have hlen : (url.take pt).length = pt := by
      have : (url.take pt ++ '/' :: url.drop (pt + 1)).length = url.length := by rw [← hsplit]
      simp at this
      simp
      omega
    conv_lhs => rw [hsplit]
    rw [List.take_append_eq_append_take]
    simp [hlen]
  simp [htake]

theorem url_upper_self (url : CString) (pt : Nat) (hpt : strrchr url '/' = some pt)
    (hl : url.getLast? = some '/') : url.take (pt + 1) = url := by
  obtain ⟨_, hnot⟩ := strrchr_some url '/' pt hpt
  have hd : url.drop (pt + 1) = [] := by
    by_contra hne
    have hmem : '/' ∈ url.drop (pt + 1) := by
      have h2 : (url.drop (pt + 1)).getLast? = some '/' := by
        have hu : url = url.take (pt + 1) ++ url.drop (pt + 1) := (List.take_append_drop _ _).symm
        rw [hu, List.getLast?_append_of_ne_nil _ hne] at hl
        exact hl
      exact List.mem_of_getLast?_eq_some h2
    exact hnot hmem
  have hu : url.take (pt + 1) ++ url.drop (pt + 1) = url := List.take_append_drop _ _
  rw [hd, List.append_nil] at hu
  exact hu

/-- C10: for a `url` that contains a slash, `url_upper` returns the part of
`url` up to and including its last slash: the result is followed in `url` by
a remainder without a slash, it ends with a slash, and it is `url` itself
when `url` ends with a slash. -/
theorem url_upper_parent (url : CString) (h : '/' ∈ url) :
    ∃ (parent rest : CString), url_upper url = some parent ∧
      url = parent ++ rest ∧ '/' ∉ rest ∧ parent.getLast? = some '/' ∧
      (url.getLast? = some '/' → parent = url) := by
  obtain ⟨pt, hpt, hup⟩ := url_upper_of_mem url h
  obtain ⟨_, hnot⟩ := strrchr_some url '/' pt hpt
  exact ⟨url.take (pt + 1), url.drop (pt + 1), hup, (List.take_append_drop _ _).symm, hnot,
    url_upper_last url pt hpt, url_upper_self url pt hpt⟩

theorem url_upper_parent_witness :
    ∃ (parent rest : CString), url_upper "http://a/b/c.txt".toList = some parent ∧
      "http://a/b/c.txt".toList = parent ++ rest ∧ '/' ∉ rest ∧ parent.getLast? = some '/' ∧
      ("http://a/b/c.txt".toList.getLast? = some '/' → parent = "http://a/b/c.txt".toList) :=
  url_upper_parent "http://a/b/c.txt".toList (by decide)

/-! ## The classifier in closed form -/

theorem url_append_eq_Join (url sublink : CString) (hne : url ≠ []) :
    url_append url sublink = some (Join url sublink) := by
  unfold Join
  by_cases h : url.getLast? = some '/'
  · rw [if_pos h]
    exact url_append_of_slash url sublink h
  · rw [if_neg h]
    exact url_append_of_no_slash url sublink hne h

theorem classify_p_url (curl : Curl) (base : CString) (i : Nat) (l : Link) :
    (classify curl base i l).p_url = l.p_url := by
  unfold classify
  split
  · split <;> rfl
  · rfl

theorem LinkTable_fill_step_eq (curl : Curl) (done rest : List Link) (l head : Link)
    (log : List Event) (h0 : (done ++ l :: rest)[0]? = some head) (hne : head.p_url ≠ []) :
    LinkTable_fill_step curl done.length ({ links := done ++ l :: rest }, log) =
      some ({ links := done ++ classify curl head.p_url done.length l :: rest },
        log ++ probes_from head.p_url done.length [l]) := by
  unfold LinkTable_fill_step
  simp only [List.getElem?_append_right (Nat.le_refl done.length), Nat.sub_self,
    List.getElem?_cons_zero, h0]
  by_cases ht : l.type = LinkType.LINK_UNKNOWN
  · simp only [ht, if_true, url_append_eq_Join head.p_url l.p_url hne, probes_from, classify,
      probe_request]
    congr 2
    · simp only [LinkTable.mk.injEq]
      split <;> simp
  · simp [ht, probes_from, classify]

theorem LinkTable_fill_loop_eq (curl : Curl) (base : CString) (hne : base ≠ []) :
    ∀ (rest done : List Link) (log : List Event),
      (∀ head, (done ++ rest)[0]? = some head → head.p_url = base) →
      LinkTable_fill_loop curl rest.length done.length ({ links := done ++ rest }, log) =
        some ({ links := done ++ classify_from curl base done.length rest },
          log ++ probes_from base done.length rest) := by
  intro rest
  induction rest with
  | nil =>
    intro done log _
    simp [LinkTable_fill_loop, classify_from, probes_from]
  | cons l ls ih =>
    intro done log hbase
    have hex : ∃ head, (done ++ l :: ls)[0]? = some head := by
      cases done <;> simp
    obtain ⟨head, h0⟩ := hex
    have hb := hbase head h0
    subst hb
    simp only [List.length_cons, LinkTable_fill_loop]
    rw [LinkTable_fill_step_eq curl done ls l head log h0 hne]
    simp only [Option.some_bind]
    have hnext := ih (done ++ [classify curl head.p_url done.length l])
      (log ++ probes_from head.p_url done.length [l]) (by
        intro head2 h2
        cases done with
        | nil =>
          simp at h0 h2
          rw [← h2, classify_p_url, h0]
        | cons d ds =>
          simp at h0 h2
          rw [← h2, h0])
    simp only [List.length_append, List.length_singleton, List.append_assoc,
      List.singleton_append] at hnext
    rw [hnext]
    simp only [classify_from, probes_from]
    split <;> simp

theorem LinkTable_fill_eq (curl : Curl) (linktbl : LinkTable) (head : Link)
    (h0 : linktbl.links[0]? = some head) (hne : head.p_url ≠ []) :
    LinkTable_fill curl linktbl =
      some ({ links := classify_from curl head.p_url 0 linktbl.links },
        probes_from head.p_url 0 linktbl.links) := by
  have h := LinkTable_fill_loop_eq curl head.p_url hne linktbl.links [] [] (by
    intro head2 h2
    simp only [List.nil_append] at h2
    rw [h0] at h2
    rw [← Option.some.inj h2])
  simpa [LinkTable_fill, LinkTable.num] using h

theorem classify_from_length (curl : Curl) (base : CString) (ls : List Link) (i : Nat) :
    (classify_from curl base i ls).length = ls.length := by
  induction ls generalizing i with
  | nil => rfl
  | cons l ls ih => simp [classify_from, ih]

theorem classify_from_getElem? (curl : Curl) (base : CString) (ls : List Link) (i j : Nat) :
    (classify_from curl base i ls)[j]? = (ls[j]?).map (classify curl base (i + j)) := by
  induction ls generalizing i j with
  | nil => simp [classify_from]
  | cons l ls ih =>
    cases j with
    | zero => simp [classify_from]
    | succ j =>
      simp only [classify_from, List.getElem?_cons_succ, ih]
      rw [show i + 1 + j = i + (j + 1) by omega]

theorem mem_probes_from (base : CString) (ls : List Link) (i : Nat) (ev : Event) :
    ev ∈ probes_from base i ls ↔
      ∃ (j : Nat) (l : Link), ls[j]? = some l ∧ l.type = LinkType.LINK_UNKNOWN ∧
        ev = Event.perform (probe_request base (i + j) l) := by
  induction ls generalizing i with
  | nil => simp [probes_from]
  | cons l ls ih =>
    unfold probes_from
    constructor
    · intro h
      by_cases ht : l.type = LinkType.LINK_UNKNOWN
      · rw [if_pos ht, List.mem_cons] at h
        rcases h with h | h
        · exact ⟨0, l, by simp, ht, by simpa using h⟩
        · obtain ⟨j, l2, hj, ht2, hev⟩ := (ih (i + 1)).mp h
          exact ⟨j + 1, l2, by simpa using hj, ht2, by rw [hev]; congr 2; omega⟩
      · rw [if_neg ht] at h
        obtain ⟨j, l2, hj, ht2, hev⟩ := (ih (i + 1)).mp h
        exact ⟨j + 1, l2, by simpa using hj, ht2, by rw [hev]; congr 2; omega⟩
    · rintro ⟨j, l2, hj, ht2, hev⟩
      cases j with
      | zero =>
        simp at hj
        subst hj
        rw [if_pos ht2, hev]
        simp
      | succ j =>
        have hm : ev ∈ probes_from base (i + 1) ls :=
          (ih (i + 1)).mpr ⟨j, l2, by simpa using hj, ht2, by rw [hev]; congr 2; omega⟩
        split
        · exact List.mem_cons_of_mem _ hm
        · exact hm

theorem url_append_ne_nil (url sublink joined : CString)
    (h : url_append url sublink = some joined) : url ≠ [] := by
  rintro rfl
  simp [url_append, strlen] at h

theorem LinkTable_fill_at (curl : Curl) (linktbl : LinkTable) (head e : Link) (i : Nat)
    (url : CString) (h0 : linktbl.links[0]? = some head) (hi : linktbl.links[i]? = some e)
    (hurl : url_append head.p_url e.p_url = some url) :
    url = Join head.p_url e.p_url ∧
    ∃ filled : LinkTable,
      LinkTable_fill curl linktbl = some (filled, probes_from head.p_url 0 linktbl.links) ∧
      filled.links[i]? = some (classify curl head.p_url i e) := by
  have hne := url_append_ne_nil _ _ _ hurl
  have hj := url_append_eq_Join head.p_url e.p_url hne
  rw [hurl] at hj
  refine ⟨Option.some.inj hj, _, LinkTable_fill_eq curl linktbl head h0 hne, ?_⟩
  simp [classify_from_getElem?, hi]

/-- C1: when `LinkTable_fill` runs on a table, an entry of unknown type whose
probe reports no content length (`-1`) becomes `LINK_DIR` with
`content_length = 0`, and one whose probe reports a length `n ≥ 0` becomes
`LINK_FILE` with `content_length = n`; a reported length of 0 gives a file
of length 0. -/
theorem LinkTable_fill_classifies (curl : Curl) (linktbl : LinkTable) (head e : Link)
    (i : Nat) (url : CString)
    (h0 : linktbl.links[0]? = some head)
    (hi : linktbl.links[i]? = some e)
    (hunknown : e.type = LinkType.LINK_UNKNOWN)
    (hurl : url_append head.p_url e.p_url = some url) :
    ∃ (filled : LinkTable) (probes : List Event) (e' : Link),
      LinkTable_fill curl linktbl = some (filled, probes) ∧
      filled.links[i]? = some e' ∧
      ((curl { handle := i, url := url, nobody := true }).content_length_download = -1 →
        e'.type = LinkType.LINK_DIR ∧ e'.content_length = 0) ∧
      (∀ n : Nat,
        (curl { handle := i, url := url, nobody := true }).content_length_download = (n : Int) →
        e'.type = LinkType.LINK_FILE ∧ e'.content_length = n) ∧
      ((curl { handle := i, url := url, nobody := true }).content_length_download = 0 →
        e'.type = LinkType.LINK_FILE ∧ e'.content_length = 0) := by
  obtain ⟨hjoin, filled, hfill, hget⟩ := LinkTable_fill_at curl linktbl head e i url h0 hi hurl
  subst hjoin
  refine ⟨filled, _, _, hfill, hget, ?_, ?_, ?_⟩
  · intro hcl
    have hcl2 : (curl (probe_request head.p_url i e)).content_length_download = -1 := hcl
    simp [classify, hunknown, hcl2]
  · intro n hcl
    have hcl2 : (curl (probe_request head.p_url i e)).content_length_download = (n : Int) := hcl
    have hne : ¬ ((n : Int) = -1) := by omega
    simp [classify, hunknown, hcl2, hne]
  · intro hcl
    have hcl2 : (curl (probe_request head.p_url i e)).content_length_download = 0 := hcl
    simp [classify, hunknown, hcl2]

theorem LinkTable_fill_classifies_witness :
    ∃ (filled : LinkTable) (probes : List Event) (e' : Link),
      LinkTable_fill sample_curl sample_table = some (filled, probes) ∧
      filled.links[1]? = some e' ∧
      e'.type = LinkType.LINK_FILE ∧ e'.content_length = 0 :=
  have h := LinkTable_fill_classifies sample_curl sample_table
    (Link_new 255 "http://a/b/".toList) (Link_new 255 "empty.txt".toList) 1
    "http://a/b/empty.txt".toList (by decide) (by decide) (by decide) (by decide)
  match h with
  | ⟨filled, probes, e', hfill, hget, _, _, hzero⟩ =>
    ⟨filled, probes, e', hfill, hget, hzero (by decide)⟩

/-- C2, as the claim states it, fails: on the table with base "http://a/b"
and the entry "c", `LinkTable_fill` probes "http://a/b/c" for the entry,
while joining "c" onto `url_upper` of the base gives "http://a/c". -/
theorem LinkTable_fill_probe_not_parent :
    (LinkTable_fill failing_curl no_slash_table).map Prod.snd =
      some [Event.perform { handle := 0, url := "http://a/b/http://a/b".toList, nobody := true },
            Event.perform { handle := 1, url := "http://a/b/c".toList, nobody := true }] ∧
    (url_upper "http://a/b".toList).bind (fun parent => url_append parent "c".toList) =
      some "http://a/c".toList ∧
    "http://a/b/c".toList ≠ "http://a/c".toList := by
  decide

/-- C2, amended: for an entry `e` of unknown type at index `i`,
`LinkTable_fill` probes `url_append(links[0]->p_url, e->p_url)` on the handle
of `e`, the join onto the base URL itself, and no other URL on that handle;
this is the join onto `url_upper` of the base when the base ends with a
slash. -/
theorem LinkTable_fill_probe_url (curl : Curl) (linktbl : LinkTable) (head e : Link)
    (i : Nat) (url : CString)
    (h0 : linktbl.links[0]? = some head)
    (hi : linktbl.links[i]? = some e)
    (hunknown : e.type = LinkType.LINK_UNKNOWN)
    (hurl : url_append head.p_url e.p_url = some url) :
    ∃ (filled : LinkTable) (probes : List Event),
      LinkTable_fill curl linktbl = some (filled, probes) ∧
      Event.perform { handle := i, url := url, nobody := true } ∈ probes ∧
      (∀ request : Request, Event.perform request ∈ probes → request.handle = i →
        request.url = url) ∧
      (head.p_url.getLast? = some '/' →
        (url_upper head.p_url).bind (fun parent => url_append parent e.p_url) = some url) := by
  obtain ⟨hjoin, filled, hfill, _⟩ := LinkTable_fill_at curl linktbl head e i url h0 hi hurl
  refine ⟨filled, _, hfill, ?_, ?_, ?_⟩
  · rw [mem_probes_from]
    exact ⟨i, e, hi, hunknown, by simp [probe_request, hjoin]⟩
  · intro request hmem hhandle
    rw [mem_probes_from] at hmem
    obtain ⟨j, l, hj, _, hev⟩ := hmem
    have hreq : request = probe_request head.p_url (0 + j) l := Event.perform.inj hev
    have hji : j = i := by
      rw [hreq] at hhandle
      simpa [probe_request] using hhandle
    subst hji
    rw [hi] at hj
    have hl : e = l := Option.some.inj hj
    rw [hreq, hjoin, hl]
    rfl
  · intro hslash
    have hmem : '/' ∈ head.p_url := List.mem_of_getLast?_eq_some hslash
    obtain ⟨pt, hpt, hup⟩ := url_upper_of_mem head.p_url hmem
    rw [hup, Option.some_bind, url_upper_self head.p_url pt hpt hslash, hurl]

theorem LinkTable_fill_probe_url_witness :
    ∃ (filled : LinkTable) (probes : List Event),
      LinkTable_fill sample_curl sample_table = some (filled, probes) ∧
      Event.perform { handle := 1, url := "http://a/b/empty.txt".toList, nobody := true }
        ∈ probes ∧
      (∀ request : Request, Event.perform request ∈ probes → request.handle = 1 →
        request.url = "http://a/b/empty.txt".toList) ∧
      ((Link_new 255 "http://a/b/".toList).p_url.getLast? = some '/' →
        (url_upper (Link_new 255 "http://a/b/".toList).p_url).bind
          (fun parent => url_append parent (Link_new 255 "empty.txt".toList).p_url) =
          some "http://a/b/empty.txt".toList) :=
  LinkTable_fill_probe_url sample_curl sample_table
    (Link_new 255 "http://a/b/".toList) (Link_new 255 "empty.txt".toList) 1
    "http://a/b/empty.txt".toList (by decide) (by decide) (by decide) (by decide)

/-- C7, as the claim states it, fails: on a transport whose every transfer
fails (code 7, no length reported), `LinkTable_fill` turns the entries of
unknown type of the table into `LINK_DIR`; none stays `LINK_UNKNOWN`. -/
theorem LinkTable_fill_failed_probe_classified :
    (failing_curl { handle := 1, url := "http://a/b/c".toList, nobody := true }).res ≠ CURLE_OK ∧
    no_slash_table.links.map Link.type = [LinkType.LINK_UNKNOWN, LinkType.LINK_UNKNOWN] ∧
    (LinkTable_fill failing_curl no_slash_table).map (fun r => r.1.links.map Link.type) =
      some [LinkType.LINK_DIR, LinkType.LINK_DIR] := by
  decide

/-- C7, amended: `LinkTable_fill` does not look at the result of the probe.
An entry of unknown type whose probe fails is classified all the same, from
the reported length alone: `LINK_DIR` with `content_length = 0` when no
length is reported (`-1`), `LINK_FILE` with the reported length otherwise;
it does not stay `LINK_UNKNOWN`. -/
theorem LinkTable_fill_ignores_probe_result (curl : Curl) (linktbl : LinkTable)
    (head e : Link) (i : Nat) (url : CString)
    (h0 : linktbl.links[0]? = some head)
    (hi : linktbl.links[i]? = some e)
    (hunknown : e.type = LinkType.LINK_UNKNOWN)
    (hurl : url_append head.p_url e.p_url = some url)
    (_hfail : (curl { handle := i, url := url, nobody := true }).res ≠ CURLE_OK) :
    ∃ (filled : LinkTable) (probes : List Event) (e' : Link),
      LinkTable_fill curl linktbl = some (filled, probes) ∧
      filled.links[i]? = some e' ∧
      e'.type ≠ LinkType.LINK_UNKNOWN ∧
      ((curl { handle := i, url := url, nobody := true }).content_length_download = -1 →
        e'.type = LinkType.LINK_DIR ∧ e'.content_length = 0) ∧
      ((curl { handle := i, url := url, nobody := true }).content_length_download ≠ -1 →
        e'.type = LinkType.LINK_FILE ∧
        e'.content_length =
          (curl { handle := i, url := url, nobody := true }).content_length_download.toNat) := by
  obtain ⟨hjoin, filled, hfill, hget⟩ := LinkTable_fill_at curl linktbl head e i url h0 hi hurl
  subst hjoin
  refine ⟨filled, _, _, hfill, hget, ?_, ?_, ?_⟩
  · unfold classify
    rw [if_pos hunknown]
    split <;> simp
  · intro hcl
    have hcl2 : (curl (probe_request head.p_url i e)).content_length_download = -1 := hcl
    simp [classify, hunknown, hcl2]
  · intro hcl
    have hcl2 : ¬ (curl (probe_request head.p_url i e)).content_length_download = -1 := hcl
    simp only [classify, hunknown, hcl2, if_true, if_false, true_and]
    rfl

theorem LinkTable_fill_ignores_probe_result_witness :
    ∃ (filled : LinkTable) (probes : List Event) (e' : Link),
      LinkTable_fill failing_curl no_slash_table = some (filled, probes) ∧
      filled.links[1]? = some e' ∧
      e'.type = LinkType.LINK_DIR ∧ e'.content_length = 0 :=
  have h := LinkTable_fill_ignores_probe_result failing_curl no_slash_table
    (Link_new 255 "http://a/b".toList) (Link_new 255 "c".toList) 1
    "http://a/b/c".toList (by decide) (by decide) (by decide) (by decide) (by decide)
  match h with
  | ⟨filled, probes, e', hfill, hget, _, hdir, _⟩ =>
    ⟨filled, probes, e', hfill, hget, hdir (by decide)⟩

/-! ## Extraction -/

theorem visit_anchor_eq (L : Nat) (tag : GumboTag) (attributes : List GumboAttribute)
    (linktbl : LinkTable) :
    (visit_anchor L tag attributes linktbl).links =
      linktbl.links ++ (anchor_href L tag attributes).map (new_entry L) := by
  unfold visit_anchor anchor_href
  split
  · split
    · split <;> simp [LinkTable_add, Link_new, new_entry, strncpy]
    · simp
  · simp

mutual
theorem HTML_to_LinkTable_eq (L : Nat) :
    ∀ (node : GumboNode) (linktbl : LinkTable),
      (HTML_to_LinkTable L node linktbl).links =
        linktbl.links ++ (qualifying_hrefs L node).map (new_entry L)
  | GumboNode.other, linktbl => by simp [HTML_to_LinkTable, qualifying_hrefs]
  | GumboNode.element tag attributes children, linktbl => by
    simp only [HTML_to_LinkTable, qualifying_hrefs]
    rw [HTML_to_LinkTable_children_eq L children, visit_anchor_eq]
    simp
theorem HTML_to_LinkTable_children_eq (L : Nat) :
    ∀ (children : List GumboNode) (linktbl : LinkTable),
      (HTML_to_LinkTable_children L children linktbl).links =
        linktbl.links ++ (qualifying_hrefs_children L children).map (new_entry L)
  | [], linktbl => by simp [HTML_to_LinkTable_children, qualifying_hrefs_children]
  | child :: rest, linktbl => by
    simp only [HTML_to_LinkTable_children, qualifying_hrefs_children]
    rw [HTML_to_LinkTable_children_eq L rest, HTML_to_LinkTable_eq L child]
    simp
end

theorem is_valid_link_replicate (L n : Nat) :
    is_valid_link L (List.replicate (n + 1) 'a') = true := by
  rw [List.replicate_succ]
  apply is_valid_link_of_alnum
  · decide
  · rintro ⟨t, ht⟩
    simp at ht
  · rintro ⟨t, ht⟩
    simp at ht

theorem qualifying_hrefs_long_anchor (L n : Nat) :
    qualifying_hrefs L (long_anchor (n + 1)) = [List.replicate (n + 1) 'a'] := by
  have hget : gumbo_get_attribute
      [{ name := "href".toList, value := List.replicate (n + 1) 'a' }] "href".toList =
      some { name := "href".toList, value := List.replicate (n + 1) 'a' } := by
    simp [gumbo_get_attribute]
  simp only [long_anchor, qualifying_hrefs, qualifying_hrefs_children, anchor_href, hget,
    is_valid_link_replicate, if_true, List.append_nil]

/-- C6, as the claim states it, fails: whatever `LINK_LEN_MAX` is, the anchor
whose href is `LINK_LEN_MAX + 1` letters `a` is accepted by `is_valid_link`
and its entry holds `LINK_LEN_MAX` letters only, so the `p_url` of the new
entry is not the href; for the bound 255 and an href of 256 letters the
entry holds 255 letters. -/
theorem HTML_to_LinkTable_truncates_href :
    ((HTML_to_LinkTable 255 (long_anchor 256) { links := [] }).links.map Link.p_url =
        [List.replicate 255 'a'] ∧
      qualifying_hrefs 255 (long_anchor 256) = [List.replicate 256 'a']) ∧
    ¬ ∃ LINK_LEN_MAX : Nat, ∀ (node : GumboNode) (linktbl : LinkTable),
      (HTML_to_LinkTable LINK_LEN_MAX node linktbl).links.map Link.p_url =
        linktbl.links.map Link.p_url ++ qualifying_hrefs LINK_LEN_MAX node := by
  refine ⟨⟨?_, qualifying_hrefs_long_anchor 255 255⟩, ?_⟩
  · rw [HTML_to_LinkTable_eq, qualifying_hrefs_long_anchor 255 255]
    simp only [List.nil_append, List.map_cons, List.map_nil, new_entry, List.take_replicate]
    norm_num
  · rintro ⟨L, h⟩
    have h1 := h (long_anchor (L + 1)) { links := [] }
    rw [HTML_to_LinkTable_eq, qualifying_hrefs_long_anchor] at h1
    simp [new_entry] at h1

/-- C6, amended: `HTML_to_LinkTable` leaves the original entries in place and
appends, for each anchor element carrying an href accepted by
`is_valid_link`, in document order (depth first, an element before its
children) and without removing repetitions, one new entry of unknown type
whose `p_url` holds the first `LINK_LEN_MAX` characters of the href; this is
the href itself when the href is shorter than `LINK_LEN_MAX`. -/
theorem HTML_to_LinkTable_appends (LINK_LEN_MAX : Nat) (node : GumboNode)
    (linktbl : LinkTable) :
    (HTML_to_LinkTable LINK_LEN_MAX node linktbl).links =
      linktbl.links ++ (qualifying_hrefs LINK_LEN_MAX node).map (fun href =>
        { p_url := href.take LINK_LEN_MAX, type := LinkType.LINK_UNKNOWN, res := -1,
          body := none, content_length := 0 }) ∧
    (HTML_to_LinkTable LINK_LEN_MAX node linktbl).num =
      linktbl.num + (qualifying_hrefs LINK_LEN_MAX node).length ∧
    ((∀ href ∈ qualifying_hrefs LINK_LEN_MAX node, href.length < LINK_LEN_MAX) →
      (HTML_to_LinkTable LINK_LEN_MAX node linktbl).links.map Link.p_url =
        linktbl.links.map Link.p_url ++ qualifying_hrefs LINK_LEN_MAX node) := by
  have h := HTML_to_LinkTable_eq LINK_LEN_MAX node linktbl
  refine ⟨h, by simp [LinkTable.num, h], fun hshort => ?_⟩
  rw [h, List.map_append, List.map_map]
  congr 1
  conv_rhs => rw [← List.map_id (qualifying_hrefs LINK_LEN_MAX node)]
  apply List.map_congr_left
  intro href hmem
  simp [new_entry, List.take_of_length_le (Nat.le_of_lt (hshort href hmem))]

/-! ## The builder -/

theorem HTML_to_LinkTable_appends_witness :
    qualifying_hrefs 255 nested_page = ["x".toList, "y".toList, "x".toList] ∧
    (HTML_to_LinkTable 255 nested_page
        { links := [Link_new 255 "http://a/b/".toList] }).links.map Link.p_url =
      ["http://a/b/".toList, "x".toList, "y".toList, "x".toList] ∧
    (HTML_to_LinkTable 255 nested_page { links := [Link_new 255 "http://a/b/".toList] }).num =
      4 :=
  have h := HTML_to_LinkTable_appends 255 nested_page
    { links := [Link_new 255 "http://a/b/".toList] }
  ⟨by decide, h.2.2 (by decide), h.2.1⟩

theorem foldl_WriteMemoryCallback_p_url (chunks : List CString) (mem : Link) :
    (chunks.foldl (fun mem contents => WriteMemoryCallback contents mem) mem).p_url =
      mem.p_url := by
  induction chunks generalizing mem with
  | nil => rfl
  | cons c cs ih =>
    rw [List.foldl_cons, ih]
    rfl

theorem foldl_WriteMemoryCallback_type (chunks : List CString) (mem : Link) :
    (chunks.foldl (fun mem contents => WriteMemoryCallback contents mem) mem).type =
      mem.type := by
  induction chunks generalizing mem with
  | nil => rfl
  | cons c cs ih =>
    rw [List.foldl_cons, ih]
    rfl

theorem fetched_head_p_url (L : Nat) (curl : Curl) (url : CString) :
    (fetched_head L curl url).p_url = url.take L := by
  simp [fetched_head, foldl_WriteMemoryCallback_p_url, Link_new, strncpy]

theorem fetched_head_type (L : Nat) (curl : Curl) (url : CString) :
    (fetched_head L curl url).type = LinkType.LINK_UNKNOWN := by
  simp [fetched_head, foldl_WriteMemoryCallback_type, Link_new]

theorem foldl_WriteMemoryCallback_body (chunks : List CString) (mem : Link)
    (h : mem.body ≠ none ∨ chunks ≠ []) :
    ∃ body, (chunks.foldl (fun mem contents => WriteMemoryCallback contents mem) mem).body =
      some body := by
  induction chunks generalizing mem with
  | nil =>
    rcases h with h | h
    · cases hb : mem.body with
      | none => exact absurd hb h
      | some b => exact ⟨b, by simp [hb]⟩
    · exact absurd rfl h
  | cons c cs ih =>
    rw [List.foldl_cons]
    exact ih _ (Or.inl (by simp [WriteMemoryCallback]))

theorem fetched_head_body (L : Nat) (curl : Curl) (url : CString)
    (hchunks : (curl { handle := 0, url := url, nobody := false }).chunks ≠ []) :
    ∃ body, (fetched_head L curl url).body = some body :=
  foldl_WriteMemoryCallback_body _ _ (Or.inr hchunks)

theorem fetched_head_res (L : Nat) (curl : Curl) (url : CString) :
    (fetched_head L curl url).res = (curl { handle := 0, url := url, nobody := false }).res :=
  rfl

theorem LinkTable_new_def (L : Nat) (curl : Curl) (gumbo_parse : CString → GumboNode)
    (url : CString) :
    LinkTable_new L curl gumbo_parse url =
      if (fetched_head L curl url).res ≠ CURLE_OK then
        some (none, [Event.perform { handle := 0, url := url, nobody := false }])
      else
        match (fetched_head L curl url).body with
        | none => none
        | some body =>
          match LinkTable_fill curl (HTML_to_LinkTable L (gumbo_parse body)
            { links := [fetched_head L curl url] }) with
          | none => none
          | some (linktbl, probes) =>
            some (some linktbl,
              [Event.perform { handle := 0, url := url, nobody := false },
               Event.parse body] ++ probes) := rfl

theorem LinkTable_new_failure (L : Nat) (curl : Curl) (gumbo_parse : CString → GumboNode)
    (url : CString) (hres : (curl { handle := 0, url := url, nobody := false }).res ≠ CURLE_OK) :
    LinkTable_new L curl gumbo_parse url =
      some (none, [Event.perform { handle := 0, url := url, nobody := false }]) := by
  rw [LinkTable_new_def, if_pos (by rw [fetched_head_res]; exact hres)]

theorem LinkTable_new_unfold (L : Nat) (curl : Curl) (gumbo_parse : CString → GumboNode)
    (url body : CString)
    (hres : (curl { handle := 0, url := url, nobody := false }).res = CURLE_OK)
    (hbody : (fetched_head L curl url).body = some body) :
    LinkTable_new L curl gumbo_parse url =
      match LinkTable_fill curl
        { links := fetched_head L curl url ::
            (qualifying_hrefs L (gumbo_parse body)).map (new_entry L) } with
      | none => none
      | some (linktbl, probes) =>
        some (some linktbl,
          [Event.perform { handle := 0, url := url, nobody := false },
           Event.parse body] ++ probes) := by
  have hlinks : HTML_to_LinkTable L (gumbo_parse body) { links := [fetched_head L curl url] } =
      { links := fetched_head L curl url ::
          (qualifying_hrefs L (gumbo_parse body)).map (new_entry L) } := by
    have h := HTML_to_LinkTable_eq L (gumbo_parse body) { links := [fetched_head L curl url] }
    cases hh : HTML_to_LinkTable L (gumbo_parse body) { links := [fetched_head L curl url] } with
    | mk links =>
      rw [hh] at h
      simp at h
      rw [h]
  rw [LinkTable_new_def, if_neg (by rw [fetched_head_res, hres]; simp), hbody]
  simp only [hlinks]

theorem LinkTable_new_success (L : Nat) (curl : Curl) (gumbo_parse : CString → GumboNode)
    (url body : CString)
    (hres : (curl { handle := 0, url := url, nobody := false }).res = CURLE_OK)
    (hbody : (fetched_head L curl url).body = some body)
    (hurl : url ≠ []) (hmax : 0 < L) :
    LinkTable_new L curl gumbo_parse url =
      some (some (LinkTable.mk (classify_from curl (url.take L) 0
              (fetched_head L curl url ::
                (qualifying_hrefs L (gumbo_parse body)).map (new_entry L)))),
        [Event.perform { handle := 0, url := url, nobody := false }, Event.parse body] ++
          probes_from (url.take L) 0
            (fetched_head L curl url ::
              (qualifying_hrefs L (gumbo_parse body)).map (new_entry L))) := by
  have hne : (fetched_head L curl url).p_url ≠ [] := by
    rw [fetched_head_p_url]
    cases url with
    | nil => exact absurd rfl hurl
    | cons c cs =>
      cases L with
      | zero => omega
      | succ n => simp
  rw [LinkTable_new_unfold L curl gumbo_parse url body hres hbody,
    LinkTable_fill_eq curl _ (fetched_head L curl url) (by simp) hne, fetched_head_p_url]

theorem LinkTable_fill_undefined (curl : Curl) (head : Link) (rest : List Link)
    (htype : head.type = LinkType.LINK_UNKNOWN) (hp : head.p_url = []) :
    LinkTable_fill curl { links := head :: rest } = none := by
  simp [LinkTable_fill, LinkTable.num, LinkTable_fill_loop, LinkTable_fill_step, htype, hp,
    url_append, strlen]

theorem LinkTable_new_head (L : Nat) (curl : Curl) (gumbo_parse : CString → GumboNode)
    (url : CString) (hres : (curl { handle := 0, url := url, nobody := false }).res = CURLE_OK)
    (hchunks : (curl { handle := 0, url := url, nobody := false }).chunks ≠ [])
    (hurl : url ≠ []) (hmax : 0 < L) :
    ∃ (linktbl : LinkTable) (log : List Event) (head : Link),
      LinkTable_new L curl gumbo_parse url = some (some linktbl, log) ∧
      1 ≤ linktbl.num ∧ linktbl.links[0]? = some head ∧ head.p_url = url.take L := by
  obtain ⟨body, hbody⟩ := fetched_head_body L curl url hchunks
  refine ⟨_, _, classify curl (url.take L) 0 (fetched_head L curl url),
    LinkTable_new_success L curl gumbo_parse url body hres hbody hurl hmax, ?_, ?_, ?_⟩
  · simp [LinkTable.num, classify_from]
  · simp [classify_from]
  · rw [classify_p_url, fetched_head_p_url]

theorem long_url_length : long_url.length = 309 := by
  unfold long_url
  rw [List.length_append, List.length_replicate]
  rfl

/-- C8, as the claim states it, fails: whatever `LINK_LEN_MAX` is, a base URL
longer than the bound is not what `links[0]->p_url` holds after a build
whose root fetch succeeds; for the bound 255 and a URL of 309 characters the
root entry holds the first 255 characters. -/
theorem LinkTable_new_truncates_url :
    (∃ (linktbl : LinkTable) (log : List Event) (head : Link),
      LinkTable_new 255 scenario_curl sample_parse long_url = some (some linktbl, log) ∧
      linktbl.links[0]? = some head ∧ head.p_url = long_url.take 255 ∧
      head.p_url.length = 255 ∧ long_url.length = 309) ∧
    ¬ ∃ LINK_LEN_MAX : Nat, ∀ (curl : Curl) (gumbo_parse : CString → GumboNode)
        (url : CString),
      (curl { handle := 0, url := url, nobody := false }).res = CURLE_OK →
      ∃ (linktbl : LinkTable) (log : List Event) (head : Link),
        LinkTable_new LINK_LEN_MAX curl gumbo_parse url = some (some linktbl, log) ∧
        1 ≤ linktbl.num ∧ linktbl.links[0]? = some head ∧ head.p_url = url := by
  constructor
  · obtain ⟨linktbl, log, head, hnew, _, h0, hp⟩ :=
      LinkTable_new_head 255 scenario_curl sample_parse long_url rfl (by simp [scenario_curl])
        (fun h => by
          have hlen := congrArg List.length h
          rw [long_url_length] at hlen
          cases hlen) (by decide)
    refine ⟨linktbl, log, head, hnew, h0, hp, ?_, long_url_length⟩
    rw [hp, List.length_take, long_url_length]
    rfl
  · rintro ⟨L, h⟩
    obtain ⟨linktbl, log, head, hnew, _, h0, hp⟩ :=
      h plain_curl (fun _ => GumboNode.other) (List.replicate (L + 1) 'a') rfl
    cases L with
    | zero =>
      obtain ⟨body, hbody⟩ := fetched_head_body 0 plain_curl (List.replicate (0 + 1) 'a')
        (by simp [plain_curl])
      rw [LinkTable_new_unfold _ _ _ _ body rfl hbody,
        LinkTable_fill_undefined _ _ _ (fetched_head_type _ _ _)
          (by rw [fetched_head_p_url]; rfl)] at hnew
      cases hnew
    | succ n =>
      obtain ⟨linktbl2, log2, head2, hnew2, _, h02, hp2⟩ :=
        LinkTable_new_head (n + 1) plain_curl (fun _ => GumboNode.other)
          (List.replicate (n + 1 + 1) 'a') rfl (by simp [plain_curl]) (by simp) (by omega)
      rw [hnew] at hnew2
      have ht : linktbl = linktbl2 := by
        have := Option.some.inj hnew2
        exact Option.some.inj (congrArg Prod.fst this)
      subst ht
      rw [h0] at h02
      have hh : head = head2 := Option.some.inj h02
      subst hh
      rw [hp] at hp2
      have hlen := congrArg List.length hp2
      simp at hlen

/-- C8, amended: for every non-empty input URL whose root fetch succeeds and
hands over at least one piece of body (and a positive `LINK_LEN_MAX`),
`LinkTable_new` returns a table with at least one entry whose
`links[0]->p_url` holds the first `LINK_LEN_MAX` characters of the input
URL; this is the input URL itself when the URL is shorter than
`LINK_LEN_MAX`. -/
theorem LinkTable_new_root_entry (LINK_LEN_MAX : Nat) (curl : Curl)
    (gumbo_parse : CString → GumboNode) (url : CString)
    (hres : (curl { handle := 0, url := url, nobody := false }).res = CURLE_OK)
    (hchunks : (curl { handle := 0, url := url, nobody := false }).chunks ≠ [])
    (hurl : url ≠ []) (hmax : 0 < LINK_LEN_MAX) :
    ∃ (linktbl : LinkTable) (log : List Event) (head : Link),
      LinkTable_new LINK_LEN_MAX curl gumbo_parse url = some (some linktbl, log) ∧
      1 ≤ linktbl.num ∧ linktbl.links[0]? = some head ∧
      head.p_url = url.take LINK_LEN_MAX ∧
      (url.length < LINK_LEN_MAX → head.p_url = url) := by
  obtain ⟨linktbl, log, head, hnew, hnum, h0, hp⟩ :=
    LinkTable_new_head LINK_LEN_MAX curl gumbo_parse url hres hchunks hurl hmax
  exact ⟨linktbl, log, head, hnew, hnum, h0, hp, fun hlen => by
    rw [hp, List.take_of_length_le (Nat.le_of_lt hlen)]⟩

theorem LinkTable_new_root_entry_witness :
    ∃ (linktbl : LinkTable) (log : List Event) (head : Link),
      LinkTable_new 255 scenario_curl sample_parse "http://a/b/".toList =
        some (some linktbl, log) ∧
      1 ≤ linktbl.num ∧ linktbl.links[0]? = some head ∧
      head.p_url = "http://a/b/".toList :=
  match LinkTable_new_root_entry 255 scenario_curl sample_parse "http://a/b/".toList
      (by decide) (by decide) (by decide) (by decide) with
  | ⟨linktbl, log, head, hnew, hnum, h0, _, hsame⟩ =>
    ⟨linktbl, log, head, hnew, hnum, h0, hsame (by decide)⟩

/-- C9: the source breaks the claim on a fetch that succeeds with an empty
body.  The write callback is never called, `head_link->body` is still the
null pointer, and `gumbo_parse` is called on it: the build is undefined and
returns no table although the result of the root fetch is `CURLE_OK`. -/
theorem LinkTable_new_empty_body :
    (empty_body_curl { handle := 0, url := "http://a/b/".toList, nobody := false }).res =
      CURLE_OK ∧
    LinkTable_new 255 empty_body_curl sample_parse "http://a/b/".toList = none := by
  decide

/-! ## The classifier on every table -/

theorem classify_of_known (curl : Curl) (base : CString) (i : Nat) (l : Link)
    (h : l.type ≠ LinkType.LINK_UNKNOWN) : classify curl base i l = l := by
  simp [classify, h]

theorem classify_type (curl : Curl) (base : CString) (i : Nat) (l : Link) :
    (classify curl base i l).type ≠ LinkType.LINK_UNKNOWN := by
  unfold classify
  split
  · split <;> simp
  · assumption

theorem classify_from_known (curl : Curl) (base : CString) (ls : List Link) (i : Nat)
    (h : ∀ l ∈ ls, l.type ≠ LinkType.LINK_UNKNOWN) : classify_from curl base i ls = ls := by
  induction ls generalizing i with
  | nil => rfl
  | cons l ls ih =>
    simp only [classify_from]
    rw [classify_of_known curl base i l (h l (List.mem_cons_self _ _)),
      ih (i + 1) (fun x hx => h x (List.mem_cons_of_mem _ hx))]

theorem probes_from_known (base : CString) (ls : List Link) (i : Nat)
    (h : ∀ l ∈ ls, l.type ≠ LinkType.LINK_UNKNOWN) : probes_from base i ls = [] := by
  induction ls generalizing i with
  | nil => rfl
  | cons l ls ih =>
    simp only [probes_from]
    rw [if_neg (h l (List.mem_cons_self _ _))]
    exact ih (i + 1) (fun x hx => h x (List.mem_cons_of_mem _ hx))

theorem LinkTable_fill_step_known (curl : Curl) (done rest : List Link) (l : Link)
    (log : List Event) (h : l.type ≠ LinkType.LINK_UNKNOWN) :
    LinkTable_fill_step curl done.length ({ links := done ++ l :: rest }, log) =
      some ({ links := done ++ l :: rest }, log) := by
  unfold LinkTable_fill_step
  simp only [List.getElem?_append_right (Nat.le_refl done.length), Nat.sub_self,
    List.getElem?_cons_zero, h, if_false]

theorem LinkTable_fill_step_empty_base (curl : Curl) (done rest : List Link) (l head : Link)
    (log : List Event) (h0 : (done ++ l :: rest)[0]? = some head) (hp : head.p_url = [])
    (h : l.type = LinkType.LINK_UNKNOWN) :
    LinkTable_fill_step curl done.length ({ links := done ++ l :: rest }, log) = none := by
  unfold LinkTable_fill_step
  simp only [List.getElem?_append_right (Nat.le_refl done.length), Nat.sub_self,
    List.getElem?_cons_zero, h0, h, if_true, hp]
  simp [url_append, strlen]

theorem LinkTable_fill_loop_known (curl : Curl) :
    ∀ (rest done : List Link) (log : List Event),
      (∀ l ∈ rest, l.type ≠ LinkType.LINK_UNKNOWN) →
      LinkTable_fill_loop curl rest.length done.length ({ links := done ++ rest }, log) =
        some ({ links := done ++ rest }, log) := by
  intro rest
  induction rest with
  | nil =>
    intro done log _
    simp [LinkTable_fill_loop]
  | cons l ls ih =>
    intro done log h
    simp only [List.length_cons, LinkTable_fill_loop]
    rw [LinkTable_fill_step_known curl done ls l log (h l (List.mem_cons_self _ _))]
    simp only [Option.some_bind]
    have hnext := ih (done ++ [l]) log (fun x hx => h x (List.mem_cons_of_mem _ hx))
    simp only [List.length_append, List.length_singleton, List.append_assoc,
      List.singleton_append] at hnext
    exact hnext

theorem LinkTable_fill_loop_empty_base (curl : Curl) (head : Link) (hp : head.p_url = []) :
    ∀ (rest done : List Link) (log : List Event),
      (done ++ rest)[0]? = some head →
      (∃ l ∈ rest, l.type = LinkType.LINK_UNKNOWN) →
      LinkTable_fill_loop curl rest.length done.length ({ links := done ++ rest }, log) =
        none := by
  intro rest
  induction rest with
  | nil =>
    intro done log _ h
    obtain ⟨l, hl, _⟩ := h
    cases hl
  | cons l ls ih =>
    intro done log h0 h
    simp only [List.length_cons, LinkTable_fill_loop]
    by_cases ht : l.type = LinkType.LINK_UNKNOWN
    · rw [LinkTable_fill_step_empty_base curl done ls l head log h0 hp ht]
      rfl
    · rw [LinkTable_fill_step_known curl done ls l log ht]
      simp only [Option.some_bind]
      have hnext := ih (done ++ [l]) log (by simpa using h0) (by
        obtain ⟨x, hx, hxt⟩ := h
        rcases List.mem_cons.mp hx with hx | hx
        · subst hx
          exact absurd hxt ht
        · exact ⟨x, hx, hxt⟩)
      simp only [List.length_append, List.length_singleton, List.append_assoc,
        List.singleton_append] at hnext
      exact hnext

theorem LinkTable_fill_of_known (curl : Curl) (linktbl : LinkTable)
    (h : ∀ l ∈ linktbl.links, l.type ≠ LinkType.LINK_UNKNOWN) :
    LinkTable_fill curl linktbl = some (linktbl, []) := by
  have := LinkTable_fill_loop_known curl linktbl.links [] [] h
  simpa [LinkTable_fill, LinkTable.num] using this

theorem LinkTable_fill_some (curl : Curl) (linktbl filled : LinkTable) (head : Link)
    (log : List Event) (h0 : linktbl.links[0]? = some head)
    (hfill : LinkTable_fill curl linktbl = some (filled, log)) :
    filled.links = classify_from curl head.p_url 0 linktbl.links ∧
    log = probes_from head.p_url 0 linktbl.links := by
  by_cases hp : head.p_url = []
  · by_cases hk : ∀ l ∈ linktbl.links, l.type ≠ LinkType.LINK_UNKNOWN
    · rw [LinkTable_fill_of_known curl linktbl hk] at hfill
      have h1 := Option.some.inj hfill
      have h2 : linktbl = filled := congrArg Prod.fst h1
      have h3 : [] = log := congrArg Prod.snd h1
      rw [← h2, ← h3, classify_from_known _ _ _ _ hk, probes_from_known _ _ _ hk]
      exact ⟨rfl, rfl⟩
    · have hex : ∃ l ∈ linktbl.links, l.type = LinkType.LINK_UNKNOWN := by
        by_contra hno
        apply hk
        intro l hl ht
        exact hno ⟨l, hl, ht⟩
      have hnone := LinkTable_fill_loop_empty_base curl head hp linktbl.links [] []
        (by simpa using h0) hex
      have hfill2 : LinkTable_fill curl linktbl = none := by
        simpa [LinkTable_fill, LinkTable.num] using hnone
      rw [hfill2] at hfill
      cases hfill
  · rw [LinkTable_fill_eq curl linktbl head h0 hp] at hfill
    have h1 := Option.some.inj hfill
    have h2 := congrArg Prod.fst h1
    have h3 := congrArg Prod.snd h1
    simp only at h2 h3
    rw [← h2, ← h3]
    exact ⟨rfl, rfl⟩

theorem LinkTable_fill_nil (curl : Curl) :
    LinkTable_fill curl { links := [] } = some ({ links := [] }, []) := rfl

theorem LinkTable_fill_known_after (curl : Curl) (linktbl filled : LinkTable)
    (log : List Event) (hfill : LinkTable_fill curl linktbl = some (filled, log)) :
    ∀ l ∈ filled.links, l.type ≠ LinkType.LINK_UNKNOWN := by
  cases hl : linktbl.links with
  | nil =>
    have ht : linktbl = { links := [] } := by
      cases linktbl
      simp at hl
      simp [hl]
    rw [ht, LinkTable_fill_nil] at hfill
    have h2 : ({ links := [] } : LinkTable) = filled :=
      congrArg Prod.fst (Option.some.inj hfill)
    rw [← h2]
    intro l hmem
    cases hmem
  | cons head rest =>
    obtain ⟨hlinks, _⟩ := LinkTable_fill_some curl linktbl filled head log (by simp [hl]) hfill
    intro l hmem
    rw [hlinks] at hmem
    obtain ⟨j, hj⟩ := List.getElem?_of_mem hmem
    rw [classify_from_getElem?] at hj
    cases hlj : linktbl.links[j]? with
    | none => simp [hlj] at hj
    | some x =>
      simp [hlj] at hj
      rw [← hj]
      exact classify_type _ _ _ _

theorem classify_frame (curl : Curl) (base : CString) (i : Nat) (l : Link) :
    (classify curl base i l).p_url = l.p_url ∧ (classify curl base i l).res = l.res ∧
    (classify curl base i l).body = l.body := by
  unfold classify
  split
  · split <;> exact ⟨rfl, rfl, rfl⟩
  · exact ⟨rfl, rfl, rfl⟩

theorem classify_from_p_url (curl : Curl) (base : CString) (ls : List Link) (i : Nat) :
    (classify_from curl base i ls).map Link.p_url = ls.map Link.p_url := by
  induction ls generalizing i with
  | nil => rfl
  | cons l ls ih => simp [classify_from, classify_p_url, ih]

theorem LinkTable_fill_frame_of_some (curl : Curl) (linktbl filled : LinkTable)
    (log : List Event) (hfill : LinkTable_fill curl linktbl = some (filled, log)) :
    filled.num = linktbl.num ∧
    filled.links.map Link.p_url = linktbl.links.map Link.p_url ∧
    (∀ (i : Nat) (l : Link), linktbl.links[i]? = some l → l.type ≠ LinkType.LINK_UNKNOWN →
      filled.links[i]? = some l) ∧
    (∀ (i : Nat) (l l' : Link), linktbl.links[i]? = some l → filled.links[i]? = some l' →
      l'.p_url = l.p_url ∧ l'.res = l.res ∧ l'.body = l.body) := by
  cases hl : linktbl.links with
  | nil =>
    have ht : linktbl = { links := [] } := by
      cases linktbl
      simp at hl
      simp [hl]
    rw [ht, LinkTable_fill_nil] at hfill
    have h2 : ({ links := [] } : LinkTable) = filled :=
      congrArg Prod.fst (Option.some.inj hfill)
    rw [← h2]
    simp [LinkTable.num, hl]
  | cons head rest =>
    obtain ⟨hlinks, _⟩ := LinkTable_fill_some curl linktbl filled head log (by simp [hl]) hfill
    rw [← hl]
    refine ⟨?_, ?_, ?_, ?_⟩
    · simp [LinkTable.num, hlinks, classify_from_length]
    · rw [hlinks, classify_from_p_url]
    · intro i l hi hknown
      rw [hlinks, classify_from_getElem?, hi]
      simp [classify_of_known _ _ _ _ hknown]
    · intro i l l' hi hi'
      rw [hlinks, classify_from_getElem?, hi] at hi'
      simp at hi'
      rw [← hi']
      exact classify_frame _ _ _ _

/-- C11: on a table in which no entry has type Unknown, `LinkTable_fill` makes
no probe and returns the table as it is; so a second run of `LinkTable_fill`
(with any transport) on the table a first run returned makes no probe and
changes nothing, and the first run does return when the base
`links[0]->p_url` is not empty. -/
theorem LinkTable_fill_idempotent (curl : Curl) (linktbl : LinkTable) :
    ((∀ l ∈ linktbl.links, l.type ≠ LinkType.LINK_UNKNOWN) →
      LinkTable_fill curl linktbl = some (linktbl, [])) ∧
    (∀ (filled : LinkTable) (log : List Event),
      LinkTable_fill curl linktbl = some (filled, log) →
      ∀ curl' : Curl, LinkTable_fill curl' filled = some (filled, [])) ∧
    (∀ head : Link, linktbl.links[0]? = some head → head.p_url ≠ [] →
      ∃ (filled : LinkTable) (log : List Event),
        LinkTable_fill curl linktbl = some (filled, log) ∧
        LinkTable_fill curl filled = some (filled, [])) := by
  refine ⟨LinkTable_fill_of_known curl linktbl, ?_, ?_⟩
  · intro filled log hfill curl'
    exact LinkTable_fill_of_known curl' filled
      (LinkTable_fill_known_after curl linktbl filled log hfill)
  · intro head h0 hne
    have hfill := LinkTable_fill_eq curl linktbl head h0 hne
    exact ⟨_, _, hfill, LinkTable_fill_of_known curl _
      (LinkTable_fill_known_after curl linktbl _ _ hfill)⟩

theorem LinkTable_fill_idempotent_witness :
    ∃ (filled : LinkTable) (log : List Event),
      LinkTable_fill sample_curl sample_table = some (filled, log) ∧
      LinkTable_fill sample_curl filled = some (filled, []) :=
  (LinkTable_fill_idempotent sample_curl sample_table).2.2
    (Link_new 255 "http://a/b/".toList) (by decide) (by decide)

/-- C17: when `LinkTable_fill` returns, the table has the same number of
entries, in the same order with the same `p_url` (and the same `res` and
`body`), and every entry whose type was already `LINK_FILE` or `LINK_DIR` is
as it was; only the type and the content length of entries of unknown type
are written.  It does return when the base `links[0]->p_url` is not
empty. -/
theorem LinkTable_fill_frame (curl : Curl) (linktbl : LinkTable) :
    (∀ (filled : LinkTable) (log : List Event),
      LinkTable_fill curl linktbl = some (filled, log) →
      filled.num = linktbl.num ∧
      filled.links.map Link.p_url = linktbl.links.map Link.p_url ∧
      (∀ (i : Nat) (l : Link), linktbl.links[i]? = some l →
        l.type ≠ LinkType.LINK_UNKNOWN → filled.links[i]? = some l) ∧
      (∀ (i : Nat) (l l' : Link), linktbl.links[i]? = some l → filled.links[i]? = some l' →
        l'.p_url = l.p_url ∧ l'.res = l.res ∧ l'.body = l.body)) ∧
    (∀ head : Link, linktbl.links[0]? = some head → head.p_url ≠ [] →
      ∃ (filled : LinkTable) (log : List Event),
        LinkTable_fill curl linktbl = some (filled, log)) := by
  refine ⟨fun filled log hfill => LinkTable_fill_frame_of_some curl linktbl filled log hfill,
    fun head h0 hne => ⟨_, _, LinkTable_fill_eq curl linktbl head h0 hne⟩⟩

theorem LinkTable_fill_frame_witness :
    ∃ (filled : LinkTable) (log : List Event),
      LinkTable_fill sample_curl mixed_table = some (filled, log) ∧
      filled.num = 3 ∧
      filled.links.map Link.p_url =
        ["http://a/b/".toList, "done.txt".toList, "empty.txt".toList] ∧
      filled.links[1]? = mixed_table.links[1]? :=
  match (LinkTable_fill_frame sample_curl mixed_table).2
      (Link_new 255 "http://a/b/".toList) (by decide) (by decide) with
  | ⟨filled, log, hfill⟩ =>
    have h := (LinkTable_fill_frame sample_curl mixed_table).1 filled log hfill
    ⟨filled, log, hfill, h.1, h.2.1, h.2.2.1 1 _ (by decide) (by decide)⟩

/-! ## Appending and the round trip of the resolver -/

/-- C18: `LinkTable_add` appends: the table has one entry more, the new link
is at the index of the old `num`, and the entries before it are unchanged at
their indices; so `HTML_to_LinkTable` never shrinks the table and leaves the
entries it was given, the root at index 0 among them, where they were. -/
theorem LinkTable_add_appends (linktbl : LinkTable) (link : Link) :
    (LinkTable_add linktbl link).num = linktbl.num + 1 ∧
    (LinkTable_add linktbl link).links[linktbl.num]? = some link ∧
    (∀ i : Nat, i < linktbl.num →
      (LinkTable_add linktbl link).links[i]? = linktbl.links[i]?) ∧
    (∀ (LINK_LEN_MAX : Nat) (node : GumboNode),
      linktbl.num ≤ (HTML_to_LinkTable LINK_LEN_MAX node linktbl).num ∧
      ∀ i : Nat, i < linktbl.num →
        (HTML_to_LinkTable LINK_LEN_MAX node linktbl).links[i]? = linktbl.links[i]?) := by
  refine ⟨by simp [LinkTable_add, LinkTable.num], by simp [LinkTable_add, LinkTable.num],
    fun i hi => ?_, fun L node => ⟨?_, fun i hi => ?_⟩⟩
  · simp only [LinkTable.num] at hi
    simp [LinkTable_add, List.getElem?_append_left hi]
  · simp [LinkTable.num, HTML_to_LinkTable_eq]
  · simp only [LinkTable.num] at hi
    rw [HTML_to_LinkTable_eq, List.getElem?_append_left hi]

theorem LinkTable_add_appends_witness :
    (LinkTable_add { links := [] } (Link_new 255 "http://a/b/".toList)).links[0]? =
      some (Link_new 255 "http://a/b/".toList) ∧
    (HTML_to_LinkTable 255 nested_page
      (LinkTable_add { links := [] } (Link_new 255 "http://a/b/".toList))).links[0]? =
      some (Link_new 255 "http://a/b/".toList) :=
  ⟨(LinkTable_add_appends { links := [] } (Link_new 255 "http://a/b/".toList)).2.1,
   ((LinkTable_add_appends
      (LinkTable_add { links := [] } (Link_new 255 "http://a/b/".toList))
      (Link_new 255 "x".toList)).2.2.2 255 nested_page).2 0 (by decide)⟩

theorem LinkTable_new_table (L : Nat) (curl : Curl) (gumbo_parse : CString → GumboNode)
    (url : CString) (linktbl : LinkTable) (log : List Event)
    (hnew : LinkTable_new L curl gumbo_parse url = some (some linktbl, log)) :
    ∃ body : CString,
      (curl { handle := 0, url := url, nobody := false }).res = CURLE_OK ∧
      (fetched_head L curl url).body = some body ∧
      linktbl.links = classify_from curl (url.take L) 0
        (fetched_head L curl url ::
          (qualifying_hrefs L (gumbo_parse body)).map (new_entry L)) ∧
      log = [Event.perform { handle := 0, url := url, nobody := false }, Event.parse body] ++
        probes_from (url.take L) 0
          (fetched_head L curl url ::
            (qualifying_hrefs L (gumbo_parse body)).map (new_entry L)) := by
  by_cases hres : (curl { handle := 0, url := url, nobody := false }).res = CURLE_OK
  · cases hb : (fetched_head L curl url).body with
    | none =>
      rw [LinkTable_new_def, if_neg (by rw [fetched_head_res, hres]; simp), hb] at hnew
      cases hnew
    | some body =>
      rw [LinkTable_new_unfold L curl gumbo_parse url body hres hb] at hnew
      cases hf : LinkTable_fill curl
          { links := fetched_head L curl url ::
              (qualifying_hrefs L (gumbo_parse body)).map (new_entry L) } with
      | none =>
        rw [hf] at hnew
        cases hnew
      | some r =>
        obtain ⟨filled, probes⟩ := r
        rw [hf] at hnew
        simp only [Option.some.injEq, Prod.mk.injEq] at hnew
        obtain ⟨hl, hp⟩ := LinkTable_fill_some curl _ filled (fetched_head L curl url) probes
          (by simp) hf
        rw [fetched_head_p_url] at hl hp
        refine ⟨body, hres, rfl, ?_, ?_⟩
        · rw [← hnew.1, hl]
        · rw [← hnew.2, hp]
  · rw [LinkTable_new_failure L curl gumbo_parse url hres] at hnew
    simp at hnew

theorem LinkTable_new_returns (L : Nat) (curl : Curl) (gumbo_parse : CString → GumboNode)
    (url : CString)
    (hres : (curl { handle := 0, url := url, nobody := false }).res = CURLE_OK)
    (hchunks : (curl { handle := 0, url := url, nobody := false }).chunks ≠ [])
    (hurl : url ≠ []) (hmax : 0 < L) :
    ∃ (linktbl : LinkTable) (log : List Event),
      LinkTable_new L curl gumbo_parse url = some (some linktbl, log) := by
  obtain ⟨body, hbody⟩ := fetched_head_body L curl url hchunks
  exact ⟨_, _, LinkTable_new_success L curl gumbo_parse url body hres hbody hurl hmax⟩

theorem type_of_ne_unknown (t : LinkType) (h : t ≠ LinkType.LINK_UNKNOWN) :
    t = LinkType.LINK_FILE ∨ t = LinkType.LINK_DIR := by
  cases t
  · exact Or.inr rfl
  · exact Or.inl rfl
  · exact absurd rfl h

theorem mem_classify_from (curl : Curl) (base : CString) (ls : List Link) (i : Nat)
    (l : Link) (h : l ∈ classify_from curl base i ls) :
    ∃ (j : Nat) (x : Link), ls[j]? = some x ∧ l = classify curl base (i + j) x := by
  obtain ⟨j, hj⟩ := List.getElem?_of_mem h
  rw [classify_from_getElem?] at hj
  cases hx : ls[j]? with
  | none => simp [hx] at hj
  | some x =>
    simp [hx] at hj
    exact ⟨j, x, hx, hj.symm⟩

/-- C13: every table `LinkTable_new` returns is fully classified: each entry,
the root at index 0 included, has type `LINK_FILE` or `LINK_DIR`, none has
type `LINK_UNKNOWN`; and a table is returned when the root fetch succeeds
with a body for a non-empty URL and a positive `LINK_LEN_MAX`. -/
theorem LinkTable_new_fully_classified (LINK_LEN_MAX : Nat) (curl : Curl)
    (gumbo_parse : CString → GumboNode) (url : CString) :
    (∀ (linktbl : LinkTable) (log : List Event),
      LinkTable_new LINK_LEN_MAX curl gumbo_parse url = some (some linktbl, log) →
      ∀ l ∈ linktbl.links, l.type ≠ LinkType.LINK_UNKNOWN ∧
        (l.type = LinkType.LINK_FILE ∨ l.type = LinkType.LINK_DIR)) ∧
    ((curl { handle := 0, url := url, nobody := false }).res = CURLE_OK →
      (curl { handle := 0, url := url, nobody := false }).chunks ≠ [] →
      url ≠ [] → 0 < LINK_LEN_MAX →
      ∃ (linktbl : LinkTable) (log : List Event),
        LinkTable_new LINK_LEN_MAX curl gumbo_parse url = some (some linktbl, log)) := by
  refine ⟨fun linktbl log hnew l hl => ?_, LinkTable_new_returns _ _ _ _⟩
  obtain ⟨body, _, _, hlinks, _⟩ := LinkTable_new_table _ _ _ _ _ _ hnew
  rw [hlinks] at hl
  obtain ⟨j, x, _, hx⟩ := mem_classify_from _ _ _ _ _ hl
  have hne : l.type ≠ LinkType.LINK_UNKNOWN := by
    rw [hx]
    exact classify_type _ _ _ _
  exact ⟨hne, type_of_ne_unknown _ hne⟩

theorem LinkTable_new_fully_classified_witness :
    ∃ (linktbl : LinkTable) (log : List Event),
      LinkTable_new 255 scenario_curl sample_parse "http://a/b/".toList =
        some (some linktbl, log) ∧
      ∀ l ∈ linktbl.links, l.type ≠ LinkType.LINK_UNKNOWN ∧
        (l.type = LinkType.LINK_FILE ∨ l.type = LinkType.LINK_DIR) :=
  match (LinkTable_new_fully_classified 255 scenario_curl sample_parse
      "http://a/b/".toList).2 (by decide) (by decide) (by decide) (by decide) with
  | ⟨linktbl, log, hnew⟩ =>
    ⟨linktbl, log, hnew,
      (LinkTable_new_fully_classified 255 scenario_curl sample_parse
        "http://a/b/".toList).1 linktbl log hnew⟩

/-- When the root fetch succeeds, the root link holds a body and the tree
parsed from that body has no qualifying anchor, the table `LinkTable_new`
returns has exactly one entry, the root (for a non-empty URL and a positive
`LINK_LEN_MAX`).  The build on a fetch that hands over no body is not
covered: see `LinkTable_new_no_anchor_empty_body`. -/
theorem LinkTable_new_no_anchor (LINK_LEN_MAX : Nat) (curl : Curl)
    (gumbo_parse : CString → GumboNode) (url body : CString)
    (hres : (curl { handle := 0, url := url, nobody := false }).res = CURLE_OK)
    (hbody : (fetched_head LINK_LEN_MAX curl url).body = some body)
    (hnone : qualifying_hrefs LINK_LEN_MAX (gumbo_parse body) = [])
    (hurl : url ≠ []) (hmax : 0 < LINK_LEN_MAX) :
    ∃ (linktbl : LinkTable) (log : List Event) (root : Link),
      LinkTable_new LINK_LEN_MAX curl gumbo_parse url = some (some linktbl, log) ∧
      Event.parse body ∈ log ∧
      linktbl.num = 1 ∧ linktbl.links = [root] ∧
      root.p_url = url.take LINK_LEN_MAX := by
  have hnew := LinkTable_new_success LINK_LEN_MAX curl gumbo_parse url body hres hbody hurl hmax
  rw [hnone] at hnew
  refine ⟨_, _, classify curl (url.take LINK_LEN_MAX) 0 (fetched_head LINK_LEN_MAX curl url),
    hnew, by simp, by simp [LinkTable.num, classify_from], by
    simp only [List.map_nil, classify_from], ?_⟩
  rw [classify_p_url, fetched_head_p_url]

theorem LinkTable_new_no_anchor_witness :
    ∃ (linktbl : LinkTable) (log : List Event) (root : Link),
      LinkTable_new 255 scenario_curl (fun _ => no_anchor_page) "http://a/b/".toList =
        some (some linktbl, log) ∧
      Event.parse "<html>".toList ∈ log ∧
      linktbl.num = 1 ∧ linktbl.links = [root] ∧
      root.p_url = "http://a/b/".toList :=
  LinkTable_new_no_anchor 255 scenario_curl (fun _ => no_anchor_page) "http://a/b/".toList
    "<html>".toList (by decide) (by decide) (by decide) (by decide) (by decide)

theorem LinkTable_new_of_empty_body (L : Nat) (gumbo_parse : CString → GumboNode)
    (url : CString) : LinkTable_new L empty_body_curl gumbo_parse url = none := rfl

/-- C14: the source breaks the claim on the empty response, a fetched body
with no anchor at all.  The root fetch succeeds, the write callback is never
called, `head_link->body` is still the null pointer and `gumbo_parse` is
called on it: the build is undefined and no table with exactly one entry is
returned, whatever the parser and the URL are, although the tree the parser
gives has no qualifying anchor. -/
theorem LinkTable_new_no_anchor_empty_body :
    (empty_body_curl { handle := 0, url := "http://a/b/".toList, nobody := false }).res =
      CURLE_OK ∧
    (empty_body_curl { handle := 0, url := "http://a/b/".toList, nobody := false }).chunks =
      [] ∧
    qualifying_hrefs 255 no_anchor_page = [] ∧
    LinkTable_new 255 empty_body_curl (fun _ => no_anchor_page) "http://a/b/".toList = none ∧
    (¬ ∃ (linktbl : LinkTable) (log : List Event),
      LinkTable_new 255 empty_body_curl (fun _ => no_anchor_page) "http://a/b/".toList =
        some (some linktbl, log) ∧ linktbl.num = 1) ∧
    (∀ (LINK_LEN_MAX : Nat) (gumbo_parse : CString → GumboNode) (url : CString),
      LinkTable_new LINK_LEN_MAX empty_body_curl gumbo_parse url = none) := by
  refine ⟨rfl, rfl, by decide, LinkTable_new_of_empty_body _ _ _, ?_,
    LinkTable_new_of_empty_body⟩
  rintro ⟨linktbl, log, hnew, _⟩
  rw [LinkTable_new_of_empty_body] at hnew
  cases hnew

/-! ## The entries made from anchors -/

theorem is_valid_link_cons (L : Nat) (n : CString) (h : is_valid_link L n = true) :
    ∃ (c : Char) (rest : CString), n = c :: rest ∧ isalnum c = true := by
  cases n with
  | nil =>
    rw [is_valid_link_of_not_alnum L [] (by decide)] at h
    cases h
  | cons c rest =>
    refine ⟨c, rest, rfl, ?_⟩
    cases hc : isalnum c with
    | true => rfl
    | false =>
      rw [is_valid_link_of_not_alnum L (c :: rest) (by simpa [charAt_cons_zero] using hc)] at h
      cases h

theorem not_http_of_valid (L : Nat) (href : CString) (h : is_valid_link L href = true) :
    ¬ "http://".toList <+: href.take L := by
  intro hpre
  have hlen := hpre.length_le
  simp only [List.length_take] at hlen
  have h7 : "http://".toList.length = 7 := rfl
  rw [h7] at hlen
  have hL : 5 < L := by omega
  obtain ⟨rest, hrest⟩ := hpre.trans (List.take_prefix L href)
  rw [← hrest, is_valid_link_http L hL rest] at h
  cases h

theorem not_https_of_valid (L : Nat) (href : CString) (h : is_valid_link L href = true) :
    ¬ "https://".toList <+: href.take L := by
  intro hpre
  have hlen := hpre.length_le
  simp only [List.length_take] at hlen
  have h8 : "https://".toList.length = 8 := rfl
  rw [h8] at hlen
  have hL : 5 < L := by omega
  obtain ⟨rest, hrest⟩ := hpre.trans (List.take_prefix L href)
  rw [← hrest, is_valid_link_https L hL rest] at h
  cases h

theorem is_valid_link_take (L : Nat) (hL : 0 < L) (href : CString)
    (h : is_valid_link L href = true) : is_valid_link L (href.take L) = true := by
  obtain ⟨c, rest, hc, halnum⟩ := is_valid_link_cons L href h
  have htake : href.take L = c :: rest.take (L - 1) := by
    rw [hc]
    cases L with
    | zero => omega
    | succ n => simp
  have h1 := not_http_of_valid L href h
  have h2 := not_https_of_valid L href h
  rw [htake] at h1 h2 ⊢
  exact is_valid_link_of_alnum L c _ halnum h1 h2

theorem anchor_href_valid (L : Nat) (tag : GumboTag) (attributes : List GumboAttribute)
    (href : CString) (h : href ∈ anchor_href L tag attributes) :
    is_valid_link L href = true := by
  unfold anchor_href at h
  split at h
  · split at h
    · split at h
      · rename_i hv
        simp at h
        rw [h]
        exact hv
      · cases h
    · cases h
  · cases h

mutual
theorem qualifying_hrefs_valid (L : Nat) :
    ∀ (node : GumboNode) (href : CString), href ∈ qualifying_hrefs L node →
      is_valid_link L href = true
  | GumboNode.other, href, h => by simp [qualifying_hrefs] at h
  | GumboNode.element tag attributes children, href, h => by
    simp only [qualifying_hrefs, List.mem_append] at h
    rcases h with h | h
    · exact anchor_href_valid L tag attributes href h
    · exact qualifying_hrefs_children_valid L children href h
theorem qualifying_hrefs_children_valid (L : Nat) :
    ∀ (children : List GumboNode) (href : CString),
      href ∈ qualifying_hrefs_children L children → is_valid_link L href = true
  | [], href, h => by simp [qualifying_hrefs_children] at h
  | child :: rest, href, h => by
    simp only [qualifying_hrefs_children, List.mem_append] at h
    rcases h with h | h
    · exact qualifying_hrefs_valid L child href h
    · exact qualifying_hrefs_children_valid L rest href h
end

/-- C15: for `LINK_LEN_MAX > 5`, every entry `HTML_to_LinkTable` appends has
a `p_url` that `is_valid_link` accepts and that does not start with "http://"
or "https://"; so in every table `LinkTable_new` returns no entry after the
root has such a `p_url`, and an anchor with the href
"http://other.example/x" adds no entry. -/
theorem HTML_to_LinkTable_entries_valid (LINK_LEN_MAX : Nat) (hmax : 5 < LINK_LEN_MAX) :
    (∀ (node : GumboNode) (linktbl : LinkTable),
      ∀ l ∈ (HTML_to_LinkTable LINK_LEN_MAX node linktbl).links.drop linktbl.num,
        is_valid_link LINK_LEN_MAX l.p_url = true ∧
        ¬ "http://".toList <+: l.p_url ∧ ¬ "https://".toList <+: l.p_url) ∧
    (∀ (curl : Curl) (gumbo_parse : CString → GumboNode) (url : CString)
        (linktbl : LinkTable) (log : List Event),
      LinkTable_new LINK_LEN_MAX curl gumbo_parse url = some (some linktbl, log) →
      ∀ (i : Nat) (l : Link), 0 < i → linktbl.links[i]? = some l →
        ¬ "http://".toList <+: l.p_url ∧ ¬ "https://".toList <+: l.p_url) ∧
    (∀ linktbl : LinkTable,
      HTML_to_LinkTable LINK_LEN_MAX
        (GumboNode.element GumboTag.GUMBO_TAG_A
          [{ name := "href".toList, value := "http://other.example/x".toList }] [])
        linktbl = linktbl) := by
  refine ⟨fun node linktbl l hl => ?_, fun curl gumbo_parse url linktbl log hnew i l hi hl => ?_,
    fun linktbl => ?_⟩
  · rw [HTML_to_LinkTable_eq] at hl
    simp only [LinkTable.num, List.drop_left] at hl
    obtain ⟨href, hmem, hhref⟩ := List.mem_map.mp hl
    have hv := qualifying_hrefs_valid LINK_LEN_MAX node href hmem
    rw [← hhref]
    exact ⟨is_valid_link_take LINK_LEN_MAX (by omega) href hv,
      not_http_of_valid LINK_LEN_MAX href hv, not_https_of_valid LINK_LEN_MAX href hv⟩
  · obtain ⟨body, _, _, hlinks, _⟩ := LinkTable_new_table _ _ _ _ _ _ hnew
    rw [hlinks, classify_from_getElem?] at hl
    cases i with
    | zero => omega
    | succ k =>
      simp only [List.getElem?_cons_succ, List.getElem?_map] at hl
      cases hk : (qualifying_hrefs LINK_LEN_MAX (gumbo_parse body))[k]? with
      | none => simp [hk] at hl
      | some href =>
        simp [hk] at hl
        have hv := qualifying_hrefs_valid LINK_LEN_MAX _ href (List.getElem?_mem hk)
        rw [← hl, classify_p_url]
        exact ⟨not_http_of_valid LINK_LEN_MAX href hv, not_https_of_valid LINK_LEN_MAX href hv⟩
  · have hrej : is_valid_link LINK_LEN_MAX "http://other.example/x".toList = false :=
      is_valid_link_http LINK_LEN_MAX hmax "other.example/x".toList
    have hget : gumbo_get_attribute
        [{ name := "href".toList, value := "http://other.example/x".toList }] "href".toList =
        some { name := "href".toList, value := "http://other.example/x".toList } := by
      decide
    simp only [HTML_to_LinkTable, HTML_to_LinkTable_children, visit_anchor, if_true]
    rw [hget]
    show (if is_valid_link LINK_LEN_MAX "http://other.example/x".toList = true then _
      else linktbl) = linktbl
    rw [hrej]
    rfl

theorem HTML_to_LinkTable_entries_valid_witness :
    5 < 255 ∧
    (∀ l ∈ (HTML_to_LinkTable 255 nested_page
          { links := [Link_new 255 "http://a/b/".toList] }).links.drop 1,
      is_valid_link 255 l.p_url = true ∧
      ¬ "http://".toList <+: l.p_url ∧ ¬ "https://".toList <+: l.p_url) ∧
    HTML_to_LinkTable 255
      (GumboNode.element GumboTag.GUMBO_TAG_A
        [{ name := "href".toList, value := "http://other.example/x".toList }] [])
      { links := [Link_new 255 "http://a/b/".toList] } =
      { links := [Link_new 255 "http://a/b/".toList] } :=
  have h := HTML_to_LinkTable_entries_valid 255 (by decide)
  ⟨by decide, h.1 nested_page { links := [Link_new 255 "http://a/b/".toList] },
    h.2.2 { links := [Link_new 255 "http://a/b/".toList] }⟩

theorem LinkTable_new_entry (L : Nat) (curl : Curl) (gumbo_parse : CString → GumboNode)
    (url body : CString)
    (hres : (curl { handle := 0, url := url, nobody := false }).res = CURLE_OK)
    (hbody : (fetched_head L curl url).body = some body)
    (hurl : url ≠ []) (hmax : 0 < L) :
    ∃ (linktbl : LinkTable) (log : List Event),
      LinkTable_new L curl gumbo_parse url = some (some linktbl, log) ∧
      linktbl.num = (qualifying_hrefs L (gumbo_parse body)).length + 1 ∧
      ∀ (i : Nat) (href : CString), (qualifying_hrefs L (gumbo_parse body))[i]? = some href →
        linktbl.links[i + 1]? =
          some (classify curl (url.take L) (i + 1) (new_entry L href)) := by
  refine ⟨_, _, LinkTable_new_success L curl gumbo_parse url body hres hbody hurl hmax, ?_, ?_⟩
  · simp [LinkTable.num, classify_from_length]
  · intro i href hi
    simp only [classify_from_getElem?, List.getElem?_cons_succ, List.getElem?_map, hi,
      Option.map_some']
    rw [Nat.zero_add]

theorem take_ne_nil (L : Nat) (url : CString) (hurl : url ≠ []) (hmax : 0 < L) :
    url.take L ≠ [] := by
  cases url with
  | nil => exact absurd rfl hurl
  | cons c cs =>
    cases L with
    | zero => omega
    | succ n => simp

/-- C16, as the claim states it, fails: whatever `LINK_LEN_MAX` is, a page
whose one anchor has an href of `LINK_LEN_MAX + 1` letters gives a table
whose entry 1 holds `LINK_LEN_MAX` letters, not the href; for the bound 255
and an href of 256 letters entry 1 holds 255 letters. -/
theorem LinkTable_new_entry_truncated :
    (∃ (linktbl : LinkTable) (log : List Event) (l : Link),
      LinkTable_new 255 plain_curl (fun _ => long_anchor 256) "http://a/b/".toList =
        some (some linktbl, log) ∧
      qualifying_hrefs 255 (long_anchor 256) = [List.replicate 256 'a'] ∧
      linktbl.links[1]? = some l ∧ l.p_url = List.replicate 255 'a') ∧
    ¬ ∃ LINK_LEN_MAX : Nat, ∀ (curl : Curl) (gumbo_parse : CString → GumboNode)
        (url : CString),
      (curl { handle := 0, url := url, nobody := false }).res = CURLE_OK →
      (curl { handle := 0, url := url, nobody := false }).chunks ≠ [] → url ≠ [] →
      ∃ (linktbl : LinkTable) (log : List Event),
        LinkTable_new LINK_LEN_MAX curl gumbo_parse url = some (some linktbl, log) ∧
        ∀ (body : CString) (i : Nat) (href : CString), Event.parse body ∈ log →
          (qualifying_hrefs LINK_LEN_MAX (gumbo_parse body))[i]? = some href →
          ∃ l : Link, linktbl.links[i + 1]? = some l ∧ l.p_url = href := by
  constructor
  · obtain ⟨body, hbody⟩ := fetched_head_body 255 plain_curl "http://a/b/".toList
      (by simp [plain_curl])
    obtain ⟨linktbl, log, hnew, _, hent⟩ := LinkTable_new_entry 255 plain_curl
      (fun _ => long_anchor 256) "http://a/b/".toList body rfl hbody (by decide) (by decide)
    have hq := qualifying_hrefs_long_anchor 255 255
    refine ⟨linktbl, log, _, hnew, hq, hent 0 (List.replicate 256 'a') (by rw [hq]; rfl), ?_⟩
    rw [classify_p_url]
    simp only [new_entry, List.take_replicate]
    norm_num
  · rintro ⟨L, h⟩
    obtain ⟨linktbl, log, hnew, hall⟩ :=
      h plain_curl (fun _ => long_anchor (L + 1)) "a".toList rfl (by simp [plain_curl])
        (by decide)
    obtain ⟨body, hbody⟩ := fetched_head_body L plain_curl "a".toList (by simp [plain_curl])
    cases L with
    | zero =>
      rw [LinkTable_new_unfold _ _ _ _ body rfl hbody,
        LinkTable_fill_undefined _ _ _ (fetched_head_type _ _ _)
          (by rw [fetched_head_p_url]; rfl)] at hnew
      cases hnew
    | succ n =>
      obtain ⟨linktbl2, log2, hnew2, _, hent⟩ := LinkTable_new_entry (n + 1) plain_curl
        (fun _ => long_anchor (n + 1 + 1)) "a".toList body rfl hbody (by decide) (by omega)
      rw [hnew] at hnew2
      have hpair := Option.some.inj hnew2
      have ht : linktbl = linktbl2 := Option.some.inj (congrArg Prod.fst hpair)
      subst ht
      obtain ⟨_, _, hb2, _, hlog⟩ := LinkTable_new_table _ _ _ _ _ _ hnew
      rw [hbody] at hb2
      have hbeq : body = _ := Option.some.inj hb2
      have hq := qualifying_hrefs_long_anchor (n + 1) (n + 1)
      obtain ⟨l, hl, hp⟩ := hall body 0 (List.replicate (n + 1 + 1) 'a')
        (by rw [hlog, ← hbeq]; simp) (by rw [hq]; rfl)
      have hl2 := hent 0 (List.replicate (n + 1 + 1) 'a') (by rw [hq]; rfl)
      rw [hl] at hl2
      have hl3 : l = _ := Option.some.inj hl2
      rw [hl3, classify_p_url] at hp
      have hlen := congrArg List.length hp
      simp [new_entry] at hlen

/-- C16, amended: in every build whose root fetch succeeds with a body (for a
non-empty URL and a positive `LINK_LEN_MAX`), the table has one entry for
the root and one for each qualifying anchor, and the anchor number `i` in
document order (from 0) is entry `i + 1`: its `p_url` holds the first
`LINK_LEN_MAX` characters of the href (the href itself when it is shorter
than `LINK_LEN_MAX`), and its type and content length come from the probe
made for it on its own handle: `LINK_DIR` and 0 when no length is reported,
`LINK_FILE` and the reported length otherwise. -/
theorem LinkTable_new_entries (LINK_LEN_MAX : Nat) (curl : Curl)
    (gumbo_parse : CString → GumboNode) (url body : CString)
    (hres : (curl { handle := 0, url := url, nobody := false }).res = CURLE_OK)
    (hbody : (fetched_head LINK_LEN_MAX curl url).body = some body)
    (hurl : url ≠ []) (hmax : 0 < LINK_LEN_MAX) :
    ∃ (linktbl : LinkTable) (log : List Event),
      LinkTable_new LINK_LEN_MAX curl gumbo_parse url = some (some linktbl, log) ∧
      linktbl.num = (qualifying_hrefs LINK_LEN_MAX (gumbo_parse body)).length + 1 ∧
      ∀ (i : Nat) (href : CString),
        (qualifying_hrefs LINK_LEN_MAX (gumbo_parse body))[i]? = some href →
        ∃ (l : Link) (probed : CString),
          linktbl.links[i + 1]? = some l ∧
          l.p_url = href.take LINK_LEN_MAX ∧
          (href.length < LINK_LEN_MAX → l.p_url = href) ∧
          url_append (url.take LINK_LEN_MAX) (href.take LINK_LEN_MAX) = some probed ∧
          Event.perform { handle := i + 1, url := probed, nobody := true } ∈ log ∧
          ((curl { handle := i + 1, url := probed, nobody := true }).content_length_download
              = -1 →
            l.type = LinkType.LINK_DIR ∧ l.content_length = 0) ∧
          ((curl { handle := i + 1, url := probed, nobody := true }).content_length_download
              ≠ -1 →
            l.type = LinkType.LINK_FILE ∧
            l.content_length =
              (curl { handle := i + 1, url := probed, nobody := true
                }).content_length_download.toNat) := by
  obtain ⟨linktbl, log, hnew, hnum, hent⟩ :=
    LinkTable_new_entry LINK_LEN_MAX curl gumbo_parse url body hres hbody hurl hmax
  refine ⟨linktbl, log, hnew, hnum, fun i href hi => ?_⟩
  have hne := take_ne_nil LINK_LEN_MAX url hurl hmax
  obtain ⟨_, _, hb2, _, hlog⟩ := LinkTable_new_table _ _ _ _ _ _ hnew
  rw [hbody] at hb2
  have hbeq := Option.some.inj hb2
  refine ⟨_, Join (url.take LINK_LEN_MAX) (href.take LINK_LEN_MAX), hent i href hi,
    by rw [classify_p_url]; rfl,
    fun hlen => by
      rw [classify_p_url]
      exact List.take_of_length_le (Nat.le_of_lt hlen),
    url_append_eq_Join _ _ hne, ?_, ?_, ?_⟩
  · rw [hlog, ← hbeq]
    apply List.mem_append_right
    rw [mem_probes_from]
    exact ⟨i + 1, new_entry LINK_LEN_MAX href, by simp [hi], rfl, by
      simp [probe_request, new_entry]⟩
  · intro hcl
    have hcl2 : (curl (probe_request (url.take LINK_LEN_MAX) (i + 1)
        (new_entry LINK_LEN_MAX href))).content_length_download = -1 := hcl
    have ht : (new_entry LINK_LEN_MAX href).type = LinkType.LINK_UNKNOWN := rfl
    simp [classify, ht, hcl2]
  · intro hcl
    have hcl2 : ¬ (curl (probe_request (url.take LINK_LEN_MAX) (i + 1)
        (new_entry LINK_LEN_MAX href))).content_length_download = -1 := hcl
    have ht : (new_entry LINK_LEN_MAX href).type = LinkType.LINK_UNKNOWN := rfl
    simp only [classify, ht, hcl2, if_true, if_false, true_and]
    rfl

theorem LinkTable_new_entries_witness :
    ∃ (linktbl : LinkTable) (log : List Event),
      LinkTable_new 255 scenario_curl sample_parse "http://a/b/".toList =
        some (some linktbl, log) ∧
      linktbl.num = 3 ∧
      (∃ l : Link, linktbl.links[1]? = some l ∧ l.p_url = "sub/".toList ∧
        l.type = LinkType.LINK_DIR) ∧
      (∃ l : Link, linktbl.links[2]? = some l ∧ l.p_url = "readme.txt".toList ∧
        l.type = LinkType.LINK_FILE ∧ l.content_length = 42) := by
  obtain ⟨linktbl, log, hnew, hnum, hent⟩ :=
    LinkTable_new_entries 255 scenario_curl sample_parse "http://a/b/".toList
      "<html>".toList (by decide) (by decide) (by decide) (by decide)
  refine ⟨linktbl, log, hnew, hnum, ?_, ?_⟩
  · obtain ⟨l, probed, hl, _, hsame, hj, _, hdir, _⟩ := hent 0 "sub/".toList (by decide)
    have h2 : url_append (List.take 255 "http://a/b/".toList) (List.take 255 "sub/".toList) =
        some "http://a/b/sub/".toList := by decide
    rw [h2] at hj
    have hp : "http://a/b/sub/".toList = probed := Option.some.inj hj
    subst hp
    exact ⟨l, hl, hsame (by decide), (hdir (by decide)).1⟩
  · obtain ⟨l, probed, hl, _, hsame, hj, _, _, hfile⟩ := hent 1 "readme.txt".toList (by decide)
    have h2 : url_append (List.take 255 "http://a/b/".toList)
        (List.take 255 "readme.txt".toList) = some "http://a/b/readme.txt".toList := by decide
    rw [h2] at hj
    have hp : "http://a/b/readme.txt".toList = probed := Option.some.inj hj
    subst hp
    have hf := hfile (by decide)
    exact ⟨l, hl, hsame (by decide), hf.1, by rw [hf.2]; decide⟩

/-! ## Stores outside the buffer -/

theorem url_upper_none (url : CString) (h : '/' ∉ url) : url_upper url = none := by
  simp [url_upper, (strrchr_none url '/').mpr h]

theorem url_upper_store_out_of_bounds (url_addr : Nat) (url : CString) (h : '/' ∉ url)
    (haddr : 2 ≤ url_addr) (hfit : url_addr + strlen url < 2 ^ 64) :
    url_upper_store_in_bounds url_addr url = false := by
  have hlen : url_upper_len url_addr url = 2 ^ 64 - url_addr + 1 := by
    simp only [url_upper_len, (strrchr_none url '/').mpr h]
    rw [Nat.mod_eq_of_lt (by omega : url_addr < 2 ^ 64)]
    exact Nat.mod_eq_of_lt (by omega)
  simp only [url_upper_store_in_bounds, strndup_size, hlen, decide_eq_false_iff_not]
  omega

/-- C12: the source breaks the claim.  On "readme.txt", which has no slash,
`strrchr` returns the null pointer and `url_upper` goes on without a test:
the pointer difference is undefined, nothing is reported to the caller, and
with flat 64-bit addresses (the string at address 4096) `len` is
`2^64 - 4095`, the copy has 11 bytes and the store `str[len] = 0` is far
outside it.  The same holds for every `url` without a slash. -/
theorem url_upper_no_slash_undefined :
    url_upper "readme.txt".toList = none ∧
    url_upper_len 4096 "readme.txt".toList = 2 ^ 64 - 4095 ∧
    strndup_size "readme.txt".toList (url_upper_len 4096 "readme.txt".toList) = 11 ∧
    url_upper_store_in_bounds 4096 "readme.txt".toList = false ∧
    (∀ url : CString, '/' ∉ url → url_upper url = none) ∧
    (∀ (url_addr : Nat) (url : CString), '/' ∉ url → 2 ≤ url_addr →
      url_addr + strlen url < 2 ^ 64 → url_upper_store_in_bounds url_addr url = false) := by
  have hno : '/' ∉ "readme.txt".toList := by decide
  have hlen : url_upper_len 4096 "readme.txt".toList = 2 ^ 64 - 4095 := by
    simp only [url_upper_len, (strrchr_none _ '/').mpr hno]
    norm_num
  refine ⟨url_upper_none _ hno, hlen, ?_, ?_, url_upper_none, url_upper_store_out_of_bounds⟩
  · rw [hlen]
    simp only [strndup_size, strlen]
    norm_num
  · exact url_upper_store_out_of_bounds 4096 _ hno (by norm_num) (by
      simp only [strlen]
      norm_num)

theorem needs_separator_of_slash (url : CString) (h : url.getLast? = some '/') :
    needs_separator url = 0 := by
  have hne : url ≠ [] := by
    rintro rfl
    simp at h
  have hlast : url.getLast hne = '/' := by
    rw [List.getLast?_eq_getLast _ hne] at h
    exact Option.some.inj h
  simp [needs_separator, charAt_last url hne, hlast]

theorem needs_separator_of_no_slash (url : CString) (hne : url ≠ [])
    (h : url.getLast? ≠ some '/') : needs_separator url = 1 := by
  have hlast : url.getLast hne ≠ '/' := by
    rw [List.getLast?_eq_getLast _ hne] at h
    exact fun e => h (congrArg some e)
  simp [needs_separator, charAt_last url hne, hlast]

theorem url_append_length (url sublink : CString) (hne : url ≠ []) :
    ∃ joined : CString, url_append url sublink = some joined ∧
      joined.length = strlen url + strlen sublink + needs_separator url := by
  by_cases h : url.getLast? = some '/'
  · refine ⟨_, url_append_of_slash url sublink h, ?_⟩
    simp [needs_separator_of_slash url h, strlen]
  · refine ⟨_, url_append_of_no_slash url sublink hne h, ?_⟩
    simp [needs_separator_of_no_slash url hne h, strlen]
    omega

theorem url_append_buffer (url sublink : CString) (hne : url ≠ []) :
    ∃ (size : Nat) (joined : CString) (stores : List Nat),
      url_append_size url sublink = some size ∧
      url_append url sublink = some joined ∧
      url_append_stores url sublink = some stores ∧
      size = joined.length ∧ ¬ joined.length + 1 ≤ size ∧
      size ∈ stores ∧ ¬ ∀ k ∈ stores, k < size := by
  obtain ⟨joined, hj, hlen⟩ := url_append_length url sublink hne
  have hl : ¬ strlen url = 0 := by simpa [strlen] using hne
  have hmem : strlen url + strlen sublink + needs_separator url ∈
      ((if needs_separator url ≠ 0 then List.range (strlen url) ++ [strlen url]
          else List.range (strlen url)) ++
        (List.range (strlen sublink)).map (fun k => strlen url + needs_separator url + k)) ++
        [strlen url + needs_separator url + strlen sublink] := by
    apply List.mem_append_right
    simp
    omega
  refine ⟨strlen url + strlen sublink + needs_separator url, joined, _,
    by simp [url_append_size, hl], hj, by simp only [url_append_stores, hl, if_false],
    hlen.symm, by omega, hmem, fun hall => ?_⟩
  exact Nat.lt_irrefl _ (hall _ hmem)

/-- C20: the source breaks the claim.  In `url_append("http://a/b", "c")`
`calloc` gives 12 bytes, the joined string has 12 characters, and the stores
go to the indices 0 to 12: the terminating NUL that `strncat` stores lands at
index 12, one past the end of the buffer.  For every non-empty `url` the
allocation is the length of the joined string, without the byte for the
NUL, and the last store is at the index equal to the size. -/
theorem url_append_terminator_out_of_bounds :
    url_append_size "http://a/b".toList "c".toList = some 12 ∧
    (url_append "http://a/b".toList "c".toList).map List.length = some 12 ∧
    url_append_stores "http://a/b".toList "c".toList =
      some [0, 1, 2, 3, 4, 5, 6, 7, 8, 9, 10, 11, 12] ∧
    (∀ (url sublink : CString), url ≠ [] →
      ∃ (size : Nat) (joined : CString) (stores : List Nat),
        url_append_size url sublink = some size ∧
        url_append url sublink = some joined ∧
        url_append_stores url sublink = some stores ∧
        size = joined.length ∧ ¬ joined.length + 1 ≤ size ∧
        size ∈ stores ∧ ¬ ∀ k ∈ stores, k < size) := by
  refine ⟨by decide, by decide, by decide, url_append_buffer⟩

end Httpdirfs
